import Mathlib

/-!
Verification development for the grt Gerrit client core.

Shallow embedding of the modules `gerrit.rs`, `config.rs`, `review.rs`,
`review_query.rs` and `comments.rs` of the grt repository, together with
theorems settling the behavioural claims about them.

Modelling conventions:
- Rust `String`/`&str` is modelled as `List Char` (`Str`). Rust compares
  strings byte-wise over UTF-8; lexicographic comparison of the code points
  (the order on `List Char`) coincides with that order, and `byteLen`
  models byte length where the code takes `.len()` of a string.
- `HashMap` values are modelled as association lists; iteration order of a
  hash map is unspecified in Rust, so a theorem about "any iteration order"
  quantifies over permutations of the association list.
- Machine integers (`i32`, `i64`, `u16`) are modelled as `Int`/`Nat`;
  none of the verified code paths can overflow them except where an
  explicit range check appears in the source (`i32::try_from`,
  `str::parse::<i32>`), which is modelled with explicit bounds.
- Fallible code returns `Except`; async I/O effects are abstracted into
  explicit oracle inputs (per-attempt HTTP outcomes, pre-split SSH output
  lines).
-/

namespace Grt

/-- Strings of the Rust source, as lists of characters. -/
abbrev Str := List Char

/-- Byte length of a string under UTF-8, matching Rust `str::len`. -/
def byteLen (s : Str) : Nat := (s.map Char.utf8Size).sum

/-! ## Data model (`gerrit.rs`) -/

/-- Model of `AccountInfo` (gerrit.rs). Note that `account_id`
(serde-renamed `_account_id`) is a plain `i64`, not an `Option`. -/
structure AccountInfo where
  account_id : Int
  name : Option Str
  email : Option Str
  username : Option Str
  display_name : Option Str
deriving DecidableEq, Repr

/-- Model of `GitPersonInfo` (gerrit.rs). -/
structure GitPersonInfo where
  name : Option Str
  email : Option Str
  date : Option Str
deriving DecidableEq, Repr

/-- Model of `CommitInfo` (gerrit.rs). -/
structure CommitInfo where
  subject : Option Str
  message : Option Str
  author : Option GitPersonInfo
  committer : Option GitPersonInfo
deriving DecidableEq, Repr

/-- Model of `RevisionInfo` (gerrit.rs). -/
structure RevisionInfo where
  number : Option Int
  git_ref : Option Str
  commit : Option CommitInfo
deriving DecidableEq, Repr

/-- Model of `ChangeMessageInfo` (gerrit.rs). -/
structure ChangeMessageInfo where
  id : Option Str
  author : Option AccountInfo
  date : Option Str
  message : Option Str
  revision_number : Option Int
deriving DecidableEq, Repr

/-- Model of `ChangeInfo` (gerrit.rs). The `revisions` hash map is an
association list from revision id (commit hash) to `RevisionInfo`. -/
structure ChangeInfo where
  id : Option Str
  project : Option Str
  branch : Option Str
  change_id : Option Str
  subject : Option Str
  status : Option Str
  topic : Option Str
  created : Option Str
  updated : Option Str
  number : Option Int
  owner : Option AccountInfo
  current_revision : Option Str
  revisions : Option (List (Str × RevisionInfo))
  messages : Option (List ChangeMessageInfo)
  insertions : Option Int
  deletions : Option Int
deriving DecidableEq, Repr

/-- Model of `CommentRange` (gerrit.rs). -/
structure CommentRange where
  start_line : Int
  start_character : Int
  end_line : Int
  end_character : Int
deriving DecidableEq, Repr

/-- Model of `CommentInfo` (gerrit.rs). -/
structure CommentInfo where
  id : Option Str
  path : Option Str
  line : Option Int
  range : Option CommentRange
  in_reply_to : Option Str
  message : Option Str
  updated : Option Str
  author : Option AccountInfo
  patch_set : Option Int
  unresolved : Option Bool
deriving DecidableEq, Repr

/-! ## REST client errors and response classification (`gerrit.rs`) -/

/-- Model of `GerritError` (gerrit.rs). -/
inductive GerritError where
  | authFailed (status : Nat)
  | notFound
  | serverError (status : Nat) (body : Str)
  | network (desc : Str)
deriving DecidableEq, Repr

/-- Model of `GerritError::is_retryable` (gerrit.rs). -/
def GerritError.isRetryable : GerritError → Bool
  | .serverError status _ => decide (500 ≤ status)
  | .network _ => true
  | _ => false

/-- The XSSI marker `)]}` checked by `strip_xssi_prefix` (gerrit.rs). -/
def xssiMarker : Str := [')', ']', '}']

/-- Model of `strip_xssi_prefix` (gerrit.rs): if the body contains a
newline and the text before the first newline starts with `)]}`, drop that
first line and the newline; otherwise return the body unchanged. The Rust
code locates the first `\n` with `body.find('\n')`; here the text before
the first newline is `takeWhile (· != '\n')`, and a newline exists exactly
when that text is shorter than the body. -/
def stripXssi (body : Str) : Str :=
  let pre := body.takeWhile (fun c => c != '\n')
  if pre.length < body.length ∧ xssiMarker.isPrefixOf pre then
    body.drop (pre.length + 1)
  else
    body

/-- Outcome of one HTTP round trip, abstracting the transport: either the
connection failed (reqwest error, mapped by the code to
`GerritError::Network`), or the server answered with a status and body. -/
inductive HttpOutcome where
  | transportErr (desc : Str)
  | response (status : Nat) (body : Str)
deriving DecidableEq, Repr

/-- Model of `GerritClient::get_once` (gerrit.rs): classify one HTTP
outcome. Status 401/403 map to `authFailed`, 404 to `notFound`, any other
non-2xx (reqwest `is_success` is 200..=299) to `serverError` with the
body, and transport failures to `network`. On success the XSSI marker is
stripped from the body. (The Rust code can also fail with `Network` while
reading a successful response's body; the model takes the body as given.) -/
def getOnce (o : HttpOutcome) : Except GerritError Str :=
  match o with
  | .transportErr d => .error (.network d)
  | .response status body =>
    if status = 401 ∨ status = 403 then .error (.authFailed status)
    else if status = 404 then .error .notFound
    else if ¬ (200 ≤ status ∧ status ≤ 299) then .error (.serverError status body)
    else .ok (stripXssi body)

/-! ## Retry loop (`GerritClient::get`, gerrit.rs) -/

/-- Model of `MAX_RETRIES` (gerrit.rs). -/
def MAX_RETRIES : Nat := 3

deriving instance DecidableEq for Except

/-- Observable trace of one `GerritClient::get` call: how many attempts
were made, the sleeps (in seconds) between attempts, and the final
outcome. In the error case the `Bool` records whether the `anyhow`
context wrapped around the error was the
"Gerrit API request to {path} (exhausted retries)" message (`true`) or
the plain "Gerrit API request to {path}" message (`false`). -/
structure GetTrace where
  attempts : Nat
  sleeps : List Nat
  outcome : Except (GerritError × Bool) Str
deriving DecidableEq, Repr

/-- Model of the `for attempt in 0..=MAX_RETRIES` loop of
`GerritClient::get` (gerrit.rs), driven by an oracle `res` giving the
result of each attempt. `fuel` counts the loop iterations still allowed
(`MAX_RETRIES + 1 - attempt`); when the `for` loop falls through, the code
returns `last_err.unwrap()` wrapped with the exhausted-retries context
(modelled with `Option.getD`; the Rust `unwrap` would panic on `None`,
and that line is unreachable). -/
def getLoop (res : Nat → Except GerritError Str) :
    Nat → Nat → List Nat → Option GerritError → GetTrace
  | 0, attempt, sleeps, lastErr =>
    { attempts := attempt, sleeps := sleeps
      outcome := .error (lastErr.getD (.network []), true) }
  | fuel + 1, attempt, sleeps, _ =>
    match res attempt with
    | .ok body => { attempts := attempt + 1, sleeps := sleeps, outcome := .ok body }
    | .error e =>
      if e.isRetryable ∧ attempt < MAX_RETRIES then
        getLoop res fuel (attempt + 1) (sleeps ++ [2 ^ attempt]) (some e)
      else
        { attempts := attempt + 1, sleeps := sleeps, outcome := .error (e, false) }

/-- Model of `GerritClient::get` (gerrit.rs): run the retry loop from
attempt 0. -/
def gerritGet (res : Nat → Except GerritError Str) : GetTrace :=
  getLoop res (MAX_RETRIES + 1) 0 [] none

/-! ## URL rewrite rules (`config.rs`) -/

/-- Model of `UrlRewrites` (config.rs). Each rule is a pair
`(old, new)`: `old` is the matched leading part of the URL and `new`
what replaces it. -/
structure UrlRewrites where
  instead_of : List (Str × Str)
  push_instead_of : List (Str × Str)
deriving DecidableEq, Repr

/-- One step of the scan in `longest_match_replace` (config.rs): keep the
accumulator unless this rule's `old` part starts the URL and is strictly
longer (in bytes) than the best length so far. -/
def lmrStep (url : Str) (acc : Nat × Option (Str × Str)) (rule : Str × Str) :
    Nat × Option (Str × Str) :=
  if rule.1.isPrefixOf url ∧ byteLen rule.1 > acc.1 then (byteLen rule.1, some rule) else acc

/-- Model of `longest_match_replace` (config.rs): scan the rules keeping
the longest literal match (`best_len` starts at 0 and is only beaten
strictly), then replace the matched leading part. -/
def longestMatchReplace (url : Str) (rules : List (Str × Str)) : Option Str :=
  ((rules.foldl (lmrStep url) (0, none)).2).map (fun rule => rule.2 ++ url.drop rule.1.length)

/-- Model of `alias_url` (config.rs): when resolving for push, try
`pushInsteadOf` rules first and return on a match; otherwise (and as
fallback) try `insteadOf` rules; otherwise return the URL unchanged. -/
def aliasUrl (url : Str) (rewrites : UrlRewrites) (forPush : Bool) : Str :=
  match (if forPush then longestMatchReplace url rewrites.push_instead_of else none) with
  | some result => result
  | none =>
    match longestMatchReplace url rewrites.instead_of with
    | some result => result
    | none => url

/-- Written from the spec's words for claim C9 ("among all rules whose
old_prefix is a literal prefix of the URL, select the one with the longest
old_prefix, ties broken by first-seen order"): filter the rules down to
those matching the URL and take the first one whose length attains the
maximum. -/
def specSelectRule (url : Str) (rules : List (Str × Str)) : Option (Str × Str) :=
  let ms := rules.filter (fun rule => rule.1.isPrefixOf url)
  ms.find? (fun rule => byteLen rule.1 == ((ms.map fun r => byteLen r.1).foldr max 0))

/-- Replacement under the spec-side selection of C9. -/
def specLongestMatchReplace (url : Str) (rules : List (Str × Str)) : Option Str :=
  (specSelectRule url rules).map (fun rule => rule.2 ++ url.drop rule.1.length)

/-- Spec-side selection restricted to rules with a nonempty matched part,
which is what the implementation's strict `> best_len` comparison (with
`best_len` starting at 0) actually selects. -/
def specSelectRuleNe (url : Str) (rules : List (Str × Str)) : Option (Str × Str) :=
  let ms := rules.filter (fun rule => rule.1.isPrefixOf url && !rule.1.isEmpty)
  ms.find? (fun rule => byteLen rule.1 == ((ms.map fun r => byteLen r.1).foldr max 0))

/-- Replacement under the nonempty-restricted selection. -/
def specLongestMatchReplaceNe (url : Str) (rules : List (Str × Str)) : Option Str :=
  (specSelectRuleNe url rules).map (fun rule => rule.2 ++ url.drop rule.1.length)

/-! ## Revision resolver (`review.rs`) -/

/-- Errors of `find_target_revision` (review.rs), one constructor per
distinct `context`/`bail!` message of the source. -/
inductive ResolveError where
  | noRevisionData
  | patchsetNotFound (ps : Int)
  | noCurrentRevision
  | currentNotInMap
deriving DecidableEq, Repr

/-- Model of `find_target_revision` (review.rs). With a requested
patchset, scan the revision map for a matching `_number`; without one,
look up `current_revision` in the map. A change without a revision map
fails with the distinct `noRevisionData` error. -/
def findTargetRevision (change : ChangeInfo) (patchset : Option Int) :
    Except ResolveError (Str × RevisionInfo) :=
  match change.revisions with
  | none => .error .noRevisionData
  | some revisions =>
    match patchset with
    | some ps =>
      match revisions.find? (fun sr => sr.2.number == some ps) with
      | some sr => .ok sr
      | none => .error (.patchsetNotFound ps)
    | none =>
      match change.current_revision with
      | none => .error .noCurrentRevision
      | some current =>
        match revisions.find? (fun sr => sr.1 == current) with
        | some sr => .ok (current, sr.2)
        | none => .error .currentNotInMap

/-! ## Theorems: REST error classification (C4) -/

/-- C4: the REST client classifies each HTTP response exactly as the spec
says: 401/403 give `authFailed`, 404 gives `notFound`, any other non-2xx
gives `serverError` with that status and body, transport failures give
`network`; and `is_retryable` holds exactly for `serverError` with status
at least 500 and for `network`. -/
theorem c4_error_classification :
    (∀ d, getOnce (.transportErr d) = .error (.network d)) ∧
    (∀ s b, getOnce (.response s b) = .error (.authFailed s) ↔ (s = 401 ∨ s = 403)) ∧
    (∀ s b, getOnce (.response s b) = .error .notFound ↔ s = 404) ∧
    (∀ s b, getOnce (.response s b) = .error (.serverError s b) ↔
      (s ≠ 401 ∧ s ≠ 403 ∧ s ≠ 404 ∧ ¬ (200 ≤ s ∧ s ≤ 299))) ∧
    (∀ s b, (∃ r, getOnce (.response s b) = .ok r) ↔ (200 ≤ s ∧ s ≤ 299)) ∧
    (∀ e : GerritError, e.isRetryable = true ↔
      ((∃ s b, e = .serverError s b ∧ 500 ≤ s) ∨ (∃ d, e = .network d))) := by
  refine ⟨fun d => rfl, ?_, ?_, ?_, ?_, ?_⟩
  · intro s b
    simp only [getOnce]
    by_cases h1 : s = 401 ∨ s = 403
    · rw [if_pos h1]; exact iff_of_true rfl h1
    · refine iff_of_false ?_ h1
      rw [if_neg h1]
      by_cases h2 : s = 404
      · rw [if_pos h2]; simp
      · rw [if_neg h2]; split <;> simp
  · intro s b
    simp only [getOnce]
    by_cases h1 : s = 401 ∨ s = 403
    · refine iff_of_false ?_ (by rcases h1 with h | h <;> omega)
      rw [if_pos h1]; simp
    · rw [if_neg h1]
      by_cases h2 : s = 404
      · rw [if_pos h2]; exact iff_of_true rfl h2
      · refine iff_of_false ?_ h2
        rw [if_neg h2]; split <;> simp
  · intro s b
    simp only [getOnce]
    by_cases h1 : s = 401 ∨ s = 403
    · refine iff_of_false ?_ (by rcases h1 with h | h <;> simp [h])
      rw [if_pos h1]; simp
    · rw [if_neg h1]
      by_cases h2 : s = 404
      · refine iff_of_false ?_ (by simp [h2])
        rw [if_pos h2]; simp
      · rw [if_neg h2]
        by_cases h3 : 200 ≤ s ∧ s ≤ 299
        · refine iff_of_false ?_ (fun hc => hc.2.2.2 h3)
          rw [if_neg (not_not_intro h3)]; simp
        · rw [if_pos h3]
          exact iff_of_true rfl ⟨fun h => h1 (Or.inl h), fun h => h1 (Or.inr h), h2, h3⟩
  · intro s b
    simp only [getOnce]
    by_cases h1 : s = 401 ∨ s = 403
    · refine iff_of_false ?_ (by rcases h1 with h | h <;> omega)
      rw [if_pos h1]; simp
    · rw [if_neg h1]
      by_cases h2 : s = 404
      · refine iff_of_false ?_ (by omega)
        rw [if_pos h2]; simp
      · rw [if_neg h2]
        by_cases h3 : 200 ≤ s ∧ s ≤ 299
        · rw [if_neg (not_not_intro h3)]
          exact iff_of_true ⟨stripXssi b, rfl⟩ h3
        · refine iff_of_false ?_ h3
          rw [if_pos h3]; simp
  · intro e
    cases e with
    | authFailed s => simp [GerritError.isRetryable]
    | notFound => simp [GerritError.isRetryable]
    | serverError s b =>
      simp only [GerritError.isRetryable, decide_eq_true_eq]
      constructor
      · intro h; exact Or.inl ⟨s, b, rfl, h⟩
      · rintro (⟨s', b', heq, hle⟩ | ⟨d, heq⟩)
        · cases heq; exact hle
        · cases heq
    | network d => simp [GerritError.isRetryable]

/-! ## Theorems: retry policy (C5) -/

/-- C5: on a GET whose every attempt fails with HTTP 503, the client makes
exactly 4 attempts with sleeps of 1s, 2s and 4s between them — but the
final error carries the plain request context (`false`), not the
"(exhausted retries)" context the spec requires: the exhausted-retries
wrap after the loop in `GerritClient::get` is unreachable, because the
fourth failure exits through the non-retryable arm (its guard
`attempt < MAX_RETRIES` is false). A 404 on the first attempt yields
exactly 1 attempt and no sleep, as specified. -/
theorem c5_retry_trace :
    gerritGet (fun _ => .error (.serverError 503 [])) =
      { attempts := 4, sleeps := [1, 2, 4],
        outcome := .error (.serverError 503 [], false) } ∧
    gerritGet (fun _ => .error .notFound) =
      { attempts := 1, sleeps := [], outcome := .error (.notFound, false) } := by
  constructor <;> rfl

/-! ## Theorems: XSSI stripping (C8) -/

theorem takeWhile_append_of_forall {p : Char → Bool} :
    ∀ (pre rest : Str), (∀ c ∈ pre, p c = true) → p '\n' = false →
      (pre ++ '\n' :: rest).takeWhile p = pre := by
  intro pre rest hpre hn
  induction pre with
  | nil => simp [List.takeWhile, hn]
  | cons c cs ih =>
    have hc : p c = true := hpre c (by simp)
    simp only [List.cons_append, List.takeWhile_cons, hc]
    simp [ih (fun x hx => hpre x (by simp [hx]))]

theorem takeWhile_eq_self_of_forall {p : Char → Bool} :
    ∀ (body : Str), (∀ c ∈ body, p c = true) → body.takeWhile p = body := by
  intro body h
  induction body with
  | nil => rfl
  | cons c cs ih =>
    have hc : p c = true := h c (by simp)
    simp only [List.takeWhile_cons, hc]
    simp [ih (fun x hx => h x (by simp [hx]))]

/-- C8: when the text before the first newline starts with the marker
`)]}`, `strip_xssi_prefix` removes exactly that first line and its
newline; any other body — a first line without the marker, or a body with
no newline at all — is returned unchanged. -/
theorem c8_strip_xssi :
    (∀ pre rest : Str, '\n' ∉ pre →
      (xssiMarker.isPrefixOf pre = true → stripXssi (pre ++ '\n' :: rest) = rest) ∧
      (xssiMarker.isPrefixOf pre = false →
        stripXssi (pre ++ '\n' :: rest) = pre ++ '\n' :: rest)) ∧
    (∀ body : Str, '\n' ∉ body → stripXssi body = body) := by
  constructor
  · intro pre rest hn
    have hpre : ∀ c ∈ pre, (c != '\n') = true := by
      intro c hc
      simp only [bne_iff_ne, ne_eq]
      intro h; exact hn (h ▸ hc)
    have htw : (pre ++ '\n' :: rest).takeWhile (fun c => c != '\n') = pre :=
      takeWhile_append_of_forall pre rest hpre (by simp)
    constructor
    · intro hm
      simp only [stripXssi, htw]
      have hlt : pre.length < (pre ++ '\n' :: rest).length := by
        simp only [List.length_append, List.length_cons]; omega
      rw [if_pos ⟨hlt, hm⟩]
      have hsplit : pre ++ '\n' :: rest = (pre ++ ['\n']) ++ rest := by simp
      rw [hsplit]
      exact List.drop_left' (by simp)
    · intro hm
      simp only [stripXssi, htw]
      rw [if_neg]
      rintro ⟨-, hmm⟩
      rw [hm] at hmm
      exact Bool.false_ne_true hmm
  · intro body hn
    have hb : ∀ c ∈ body, (c != '\n') = true := by
      intro c hc
      simp only [bne_iff_ne, ne_eq]
      intro h; exact hn (h ▸ hc)
    have htw : body.takeWhile (fun c => c != '\n') = body :=
      takeWhile_eq_self_of_forall body hb
    simp only [stripXssi, htw]
    rw [if_neg]
    rintro ⟨hlt, -⟩
    omega

/-- Witness for C8 at the spec's own example: stripping
`)]}'\n"3.9.1"` yields `"3.9.1"`, and a body with no newline is kept. -/
theorem c8_strip_xssi_witness :
    ('\n' ∉ (")]\x7d'".toList : Str)) ∧
    stripXssi (")]\x7d'".toList ++ '\n' :: "\"3.9.1\"".toList) = "\"3.9.1\"".toList ∧
    ('\n' ∉ ("no marker body".toList : Str)) ∧
    stripXssi "no marker body".toList = "no marker body".toList := by
  refine ⟨by decide, ?_, by decide, ?_⟩
  · exact (c8_strip_xssi.1 ")]\x7d'".toList "\"3.9.1\"".toList (by decide)).1 (by decide)
  · exact c8_strip_xssi.2 "no marker body".toList (by decide)

/-! ## Theorems: transport precedence in alias_url (C10) -/

/-- C10: `pushInsteadOf` rules are consulted only when resolving for push:
with `for_push = false` the push rules are irrelevant (any push rule set
gives the same result) and only `insteadOf` rules can rewrite; with
`for_push = true`, a matching `pushInsteadOf` rule wins and the
`insteadOf` rules are never consulted, while with no push match the
result is exactly the fetch-side result. -/
theorem c10_push_precedence :
    (∀ url io pio pio',
      aliasUrl url ⟨io, pio⟩ false = aliasUrl url ⟨io, pio'⟩ false) ∧
    (∀ url io pio r, longestMatchReplace url pio = some r →
      aliasUrl url ⟨io, pio⟩ true = r ∧
      ∀ io', aliasUrl url ⟨io', pio⟩ true = r) ∧
    (∀ url io pio, longestMatchReplace url pio = none →
      aliasUrl url ⟨io, pio⟩ true = aliasUrl url ⟨io, pio⟩ false) := by
  refine ⟨fun url io pio pio' => rfl, ?_, ?_⟩
  · intro url io pio r h
    refine ⟨?_, fun io' => ?_⟩ <;> simp [aliasUrl, h]
  · intro url io pio h
    simp [aliasUrl, h]

/-- Witness for C10 at concrete inputs: with `for_push = true` a matching
push rule rewrites the URL and the `insteadOf` rules are ignored; with no
push match the fetch-side rewrite applies. -/
theorem c10_push_precedence_witness :
    (longestMatchReplace "https://h/p".toList [("https://".toList, "ssh://".toList)] =
      some "ssh://h/p".toList) ∧
    aliasUrl "https://h/p".toList
      ⟨[("https://h/".toList, "http://x/".toList)],
       [("https://".toList, "ssh://".toList)]⟩ true = "ssh://h/p".toList ∧
    (longestMatchReplace "https://h/p".toList ([] : List (Str × Str)) = none) ∧
    aliasUrl "https://h/p".toList
      ⟨[("https://h/".toList, "http://x/".toList)], []⟩ true =
      aliasUrl "https://h/p".toList
        ⟨[("https://h/".toList, "http://x/".toList)], []⟩ false := by
  refine ⟨by decide, ?_, by decide, ?_⟩
  · exact ((c10_push_precedence.2.1 "https://h/p".toList
      [("https://h/".toList, "http://x/".toList)]
      [("https://".toList, "ssh://".toList)] "ssh://h/p".toList (by decide)).1)
  · exact c10_push_precedence.2.2 "https://h/p".toList
      [("https://h/".toList, "http://x/".toList)] [] (by decide)

/-! ## Theorems: revision resolver (C6) -/

/-- C6: `find_target_revision` with a requested patchset returns a
revision of the map with that patchset number and fails with an error
naming the number when none matches; with no requested patchset it
returns the revision keyed by `current_revision`, failing when that field
is absent or not a key; and a change with no revision map at all fails
with the distinct `noRevisionData` error. -/
theorem c6_find_target_revision (change : ChangeInfo) :
    (change.revisions = none →
      ∀ ps, findTargetRevision change ps = .error .noRevisionData) ∧
    (∀ rs, change.revisions = some rs →
      (∀ n : Int,
        ((∀ sr ∈ rs, sr.2.number ≠ some n) →
          findTargetRevision change (some n) = .error (.patchsetNotFound n)) ∧
        ((∃ sr ∈ rs, sr.2.number = some n) →
          ∃ sha rev, findTargetRevision change (some n) = .ok (sha, rev) ∧
            (sha, rev) ∈ rs ∧ rev.number = some n) ∧
        (∀ sha rev, findTargetRevision change (some n) = .ok (sha, rev) →
          (sha, rev) ∈ rs ∧ rev.number = some n)) ∧
      (change.current_revision = none →
        findTargetRevision change none = .error .noCurrentRevision) ∧
      (∀ cur, change.current_revision = some cur →
        ((∀ sr ∈ rs, sr.1 ≠ cur) →
          findTargetRevision change none = .error .currentNotInMap) ∧
        ((∃ sr ∈ rs, sr.1 = cur) →
          ∃ rev, findTargetRevision change none = .ok (cur, rev) ∧ (cur, rev) ∈ rs) ∧
        (∀ sha rev, findTargetRevision change none = .ok (sha, rev) →
          sha = cur ∧ ∃ sr ∈ rs, sr.1 = cur ∧ sr.2 = rev))) := by
  constructor
  · intro h ps
    cases ps <;> simp [findTargetRevision, h]
  · intro rs hrs
    refine ⟨?_, ?_, ?_⟩
    · intro n
      refine ⟨?_, ?_, ?_⟩
      · intro hnone
        have hf : rs.find? (fun sr => sr.2.number == some n) = none := by
          rw [List.find?_eq_none]
          intro sr hsr
          simpa using hnone sr hsr
        simp [findTargetRevision, hrs, hf]
      · rintro ⟨sr, hmem, hnum⟩
        have hsome : (rs.find? (fun sr => sr.2.number == some n)).isSome = true := by
          rw [List.find?_isSome]
          exact ⟨sr, hmem, by simpa using hnum⟩
        cases hf : rs.find? (fun sr => sr.2.number == some n) with
        | none => rw [hf] at hsome; simp at hsome
        | some found =>
          refine ⟨found.1, found.2, ?_, ?_, ?_⟩
          · simp [findTargetRevision, hrs, hf]
          · simpa using List.mem_of_find?_eq_some hf
          · simpa using List.find?_some hf
      · intro sha rev hok
        simp only [findTargetRevision, hrs] at hok
        cases hf : rs.find? (fun sr => sr.2.number == some n) with
        | none => rw [hf] at hok; simp at hok
        | some found =>
          rw [hf] at hok
          simp only [Except.ok.injEq] at hok
          have hm := List.mem_of_find?_eq_some hf
          have hp := List.find?_some hf
          rw [hok] at hm hp
          exact ⟨hm, by simpa using hp⟩
    · intro hcur
      simp [findTargetRevision, hrs, hcur]
    · intro cur hcur
      refine ⟨?_, ?_, ?_⟩
      · intro hnone
        have hf : rs.find? (fun sr => sr.1 == cur) = none := by
          rw [List.find?_eq_none]
          intro sr hsr
          simpa using hnone sr hsr
        simp [findTargetRevision, hrs, hcur, hf]
      · rintro ⟨sr, hmem, hkey⟩
        have hsome : (rs.find? (fun sr => sr.1 == cur)).isSome = true := by
          rw [List.find?_isSome]
          exact ⟨sr, hmem, by simpa using hkey⟩
        cases hf : rs.find? (fun sr => sr.1 == cur) with
        | none => rw [hf] at hsome; simp at hsome
        | some found =>
          refine ⟨found.2, ?_, ?_⟩
          · simp [findTargetRevision, hrs, hcur, hf]
          · have hm := List.mem_of_find?_eq_some hf
            have hpe : found.1 = cur := by simpa using List.find?_some hf
            rw [← hpe, Prod.mk.eta]
            exact hm
      · intro sha rev hok
        simp only [findTargetRevision, hrs, hcur] at hok
        cases hf : rs.find? (fun sr => sr.1 == cur) with
        | none => rw [hf] at hok; simp at hok
        | some found =>
          rw [hf] at hok
          simp only [Except.ok.injEq, Prod.mk.injEq] at hok
          have hm := List.mem_of_find?_eq_some hf
          have hp := List.find?_some hf
          exact ⟨hok.1.symm, found, hm, by simpa using hp, hok.2⟩

/-- Concrete change used to witness C6: two patchsets 1 and 2, current
revision `r2`. -/
def c6Revs : List (Str × RevisionInfo) :=
  [("r1".toList, ⟨some 1, some "refs/changes/45/12345/1".toList, none⟩),
   ("r2".toList, ⟨some 2, some "refs/changes/45/12345/2".toList, none⟩)]

/-- Concrete change used to witness C6. -/
def c6Change : ChangeInfo :=
  { id := none, project := some "proj".toList, branch := some "main".toList,
    change_id := none, subject := none, status := some "NEW".toList,
    topic := none, created := none, updated := none, number := some 12345,
    owner := none, current_revision := some "r2".toList,
    revisions := some c6Revs, messages := none,
    insertions := none, deletions := none }

/-- Witness for C6: requesting patchset 99 on a change with patchsets
{1, 2} fails naming 99; requesting patchset 2 succeeds with that
revision; requesting no patchset succeeds with the revision keyed by
`current_revision` (`r2`); a change without revision data fails with
`noRevisionData`. -/
theorem c6_find_target_revision_witness :
    findTargetRevision c6Change (some 99) = .error (.patchsetNotFound 99) ∧
    (∃ sha rev, findTargetRevision c6Change (some 2) = .ok (sha, rev) ∧
      (sha, rev) ∈ c6Revs ∧ rev.number = some 2) ∧
    (∃ rev, findTargetRevision c6Change none = .ok ("r2".toList, rev) ∧
      ("r2".toList, rev) ∈ c6Revs) ∧
    findTargetRevision { c6Change with revisions := none } (some 99) =
      .error .noRevisionData := by
  refine ⟨?_, ?_, ?_, ?_⟩
  · exact (((c6_find_target_revision c6Change).2 c6Revs rfl).1 99).1 (by decide)
  · exact (((c6_find_target_revision c6Change).2 c6Revs rfl).1 2).2.1
      ⟨("r2".toList, ⟨some 2, some "refs/changes/45/12345/2".toList, none⟩),
        by decide, rfl⟩
  · exact (((c6_find_target_revision c6Change).2 c6Revs rfl).2.2 "r2".toList rfl).2.1
      ⟨("r2".toList, ⟨some 2, some "refs/changes/45/12345/2".toList, none⟩),
        by decide, rfl⟩
  · exact (c6_find_target_revision { c6Change with revisions := none }).1 rfl (some 99)

/-! ## Longest-match selection (C9) -/

/-- Byte length of the empty string is zero, and a nonempty string has a
positive byte length. -/
theorem byteLen_pos_iff (s : Str) : 0 < byteLen s ↔ s ≠ [] := by
  cases s with
  | nil => simp [byteLen]
  | cons c cs =>
    simp only [byteLen, List.map_cons, List.sum_cons, ne_eq, reduceCtorEq,
      not_false_eq_true, iff_true]
    have := Char.utf8Size_pos c
    omega

theorem foldr_max_le {l : List Nat} {m : Nat} (h : ∀ x ∈ l, x ≤ m) :
    l.foldr max 0 ≤ m := by
  induction l with
  | nil => simp
  | cons a l ih =>
    simp only [List.foldr_cons, Nat.max_le]
    exact ⟨h a (by simp), ih (fun x hx => h x (by simp [hx]))⟩

theorem le_foldr_max {l : List Nat} {x : Nat} (h : x ∈ l) : x ≤ l.foldr max 0 := by
  induction l with
  | nil => simp at h
  | cons a l ih =>
    simp only [List.foldr_cons]
    rcases List.mem_cons.mp h with h | h
    · omega
    · have := ih h; omega

theorem foldr_max_mem {l : List Nat} (h : l ≠ []) : l.foldr max 0 ∈ l := by
  induction l with
  | nil => exact absurd rfl h
  | cons a l ih =>
    by_cases hl : l = []
    · subst hl; simp
    · rw [List.foldr_cons]
      rcases Nat.le_total a (l.foldr max 0) with hle | hle
      · rw [Nat.max_eq_right hle]
        exact List.mem_cons_of_mem a (ih hl)
      · rw [Nat.max_eq_left hle]
        exact List.mem_cons_self a l

theorem find?_filter_of_imp {α : Type} {p q : α → Bool}
    (himp : ∀ x, p x = true → q x = true) :
    ∀ l : List α, (l.filter q).find? p = l.find? p := by
  intro l
  induction l with
  | nil => rfl
  | cons a l ih =>
    by_cases hp : p a = true
    · rw [List.filter_cons_of_pos (himp a hp), List.find?_cons_of_pos _ hp,
        List.find?_cons_of_pos _ hp]
    · by_cases hq : q a = true
      · rw [List.filter_cons_of_pos hq, List.find?_cons_of_neg _ hp,
          List.find?_cons_of_neg _ hp, ih]
      · rw [List.filter_cons_of_neg hq, List.find?_cons_of_neg _ hp, ih]

/-- Recursive form of "first element attaining the maximal measure
strictly above `n` among those satisfying `m`", mirroring the shape of
the scan in `longest_match_replace` (`m` will be "matches the URL" and
`f` the byte length of the rule's matched part). -/
def selA {α : Type} (m : α → Bool) (f : α → Nat) : Nat → List α → Option α
  | _, [] => none
  | n, x :: xs =>
    if m x = true ∧ f x > n then
      match selA m f (f x) xs with
      | some better => some better
      | none => some x
    else selA m f n xs

/-- Spec-style form of the same selection: filter to the qualifying
elements with measure above `n` and take the first one attaining the
maximal measure. -/
def specA {α : Type} (m : α → Bool) (f : α → Nat) (n : Nat) (l : List α) : Option α :=
  (l.filter (fun x => m x && decide (f x > n))).find?
    (fun x => f x == ((l.filter (fun x => m x && decide (f x > n))).map f).foldr max 0)

theorem lmr_foldl_eq_selA (url : Str) :
    ∀ (rules : List (Str × Str)) (n : Nat) (b : Option (Str × Str)),
      rules.foldl (lmrStep url) (n, b) =
        match selA (fun r => r.1.isPrefixOf url) (fun r => byteLen r.1) n rules with
        | some rule => (byteLen rule.1, some rule)
        | none => (n, b) := by
  intro rules
  induction rules with
  | nil => intro n b; rfl
  | cons rule rest ih =>
    intro n b
    simp only [List.foldl_cons, selA, lmrStep]
    by_cases hc : rule.1.isPrefixOf url = true ∧ byteLen rule.1 > n
    · rw [if_pos hc, if_pos hc, ih (byteLen rule.1) (some rule)]
      cases hsel : selA (fun r => r.1.isPrefixOf url) (fun r => byteLen r.1)
          (byteLen rule.1) rest <;> simp [hsel]
    · rw [if_neg hc, if_neg hc, ih n b]

theorem selA_eq_specA {α : Type} (m : α → Bool) (f : α → Nat) :
    ∀ (l : List α) (n : Nat), selA m f n l = specA m f n l := by
  intro l
  induction l with
  | nil => intro n; rfl
  | cons x xs ih =>
    intro n
    by_cases hc : m x = true ∧ f x > n
    · have hpred : (m x && decide (f x > n)) = true := by simp [hc.1, hc.2]
      have hfc : (x :: xs).filter (fun y => m y && decide (f y > n)) =
          x :: xs.filter (fun y => m y && decide (f y > n)) :=
        List.filter_cons_of_pos hpred
      have hL : selA m f n (x :: xs) =
          (match selA m f (f x) xs with
           | some better => some better
           | none => some x) := by
        simp only [selA]; rw [if_pos hc]
      rw [hL, ih (f x)]
      cases hsel : specA m f (f x) xs with
      | some b =>
        show some b = specA m f n (x :: xs)
        have hfind := hsel
        simp only [specA] at hfind
        have hmem := List.mem_of_find?_eq_some hfind
        have hfb := List.find?_some hfind
        rw [List.mem_filter] at hmem
        obtain ⟨hbxs, hbpred⟩ := hmem
        simp only [Bool.and_eq_true, decide_eq_true_eq] at hbpred
        obtain ⟨hbm, hbgt⟩ := hbpred
        have hmaxB : f b =
            ((xs.filter (fun y => m y && decide (f y > f x))).map f).foldr max 0 := by
          simpa using hfb
        have hbms : b ∈ xs.filter (fun y => m y && decide (f y > n)) := by
          rw [List.mem_filter]
          refine ⟨hbxs, ?_⟩
          simp only [Bool.and_eq_true, decide_eq_true_eq]
          exact ⟨hbm, by omega⟩
        have hmax' :
            ((xs.filter (fun y => m y && decide (f y > n))).map f).foldr max 0 = f b := by
          apply Nat.le_antisymm
          · apply foldr_max_le
            intro v hv
            rcases List.mem_map.mp hv with ⟨y, hy, rfl⟩
            rw [List.mem_filter] at hy
            simp only [Bool.and_eq_true, decide_eq_true_eq] at hy
            by_cases hgt : f y > f x
            · have hyB : y ∈ xs.filter (fun z => m z && decide (f z > f x)) := by
                rw [List.mem_filter]
                refine ⟨hy.1, ?_⟩
                simp only [Bool.and_eq_true, decide_eq_true_eq]
                exact ⟨hy.2.1, hgt⟩
              have hfy : f y ∈ (xs.filter (fun z => m z && decide (f z > f x))).map f :=
                List.mem_map_of_mem f hyB
              have := le_foldr_max hfy
              omega
            · omega
          · have hfb' : f b ∈ (xs.filter (fun y => m y && decide (f y > n))).map f :=
              List.mem_map_of_mem f hbms
            exact le_foldr_max hfb'
        have himp : ∀ y, (f y == f b) = true → (decide (f y > f x)) = true := by
          intro y hy
          simp only [beq_iff_eq] at hy
          simp only [decide_eq_true_eq]
          omega
        have hcongr : xs.filter
            (fun y => decide (f y > f x) && (m y && decide (f y > n))) =
            xs.filter (fun y => m y && decide (f y > f x)) := by
          apply List.filter_congr
          intro y _
          by_cases h1 : m y = true
          · by_cases h2 : f y > f x
            · have h3 : f y > n := by omega
              simp [h1, h2, h3]
            · simp [h1, h2]
          · simp only [Bool.not_eq_true] at h1
            simp [h1]
        rw [← hmaxB] at hfind
        simp only [specA]
        rw [hfc, List.map_cons, List.foldr_cons, hmax',
          Nat.max_eq_right (Nat.le_of_lt hbgt)]
        rw [List.find?_cons_of_neg _ (by simp only [beq_iff_eq]; omega)]
        rw [← find?_filter_of_imp himp (xs.filter (fun y => m y && decide (f y > n))),
          List.filter_filter, hcongr]
        exact hfind.symm
      | none =>
        show some x = specA m f n (x :: xs)
        have hfind := hsel
        simp only [specA] at hfind
        have hBnil : xs.filter (fun y => m y && decide (f y > f x)) = [] := by
          by_contra hne
          have hmm := foldr_max_mem
            (l := (xs.filter (fun y => m y && decide (f y > f x))).map f)
            (by simpa using hne)
          rcases List.mem_map.mp hmm with ⟨y, hy, hyeq⟩
          have hs : ((xs.filter (fun y => m y && decide (f y > f x))).find?
              (fun y => f y ==
                ((xs.filter (fun y => m y && decide (f y > f x))).map f).foldr
                  max 0)).isSome = true := by
            rw [List.find?_isSome]
            exact ⟨y, hy, by simp [hyeq]⟩
          rw [hfind] at hs
          simp at hs
        have hle : ∀ y ∈ xs.filter (fun z => m z && decide (f z > n)), f y ≤ f x := by
          intro y hy
          by_contra hgt
          rw [List.mem_filter] at hy
          simp only [Bool.and_eq_true, decide_eq_true_eq] at hy
          have hyB : y ∈ xs.filter (fun z => m z && decide (f z > f x)) := by
            rw [List.mem_filter]
            refine ⟨hy.1, ?_⟩
            simp only [Bool.and_eq_true, decide_eq_true_eq]
            exact ⟨hy.2.1, by omega⟩
          rw [hBnil] at hyB
          simp at hyB
        have hmx :
            ((xs.filter (fun y => m y && decide (f y > n))).map f).foldr max 0 ≤ f x := by
          apply foldr_max_le
          intro v hv
          rcases List.mem_map.mp hv with ⟨y, hy, rfl⟩
          exact hle y hy
        simp only [specA]
        rw [hfc, List.map_cons, List.foldr_cons, Nat.max_eq_left hmx]
        rw [List.find?_cons_of_pos _ (by simp)]
    · have hpred : (m x && decide (f x > n)) = false := by
        by_cases h1 : m x = true
        · have h2 : ¬ f x > n := fun h => hc ⟨h1, h⟩
          simp [h1, h2]
        · simp only [Bool.not_eq_true] at h1
          simp [h1]
      have hfc : (x :: xs).filter (fun y => m y && decide (f y > n)) =
          xs.filter (fun y => m y && decide (f y > n)) :=
        List.filter_cons_of_neg (by simp [hpred])
      have hL : selA m f n (x :: xs) = selA m f n xs := by
        simp only [selA]; rw [if_neg hc]
      rw [hL, ih n]
      simp only [specA]
      rw [hfc]

theorem specA_zero_eq_ne (url : Str) (rules : List (Str × Str)) :
    specA (fun r : Str × Str => r.1.isPrefixOf url) (fun r => byteLen r.1) 0 rules =
      specSelectRuleNe url rules := by
  simp only [specA, specSelectRuleNe]
  have hcongr : rules.filter
      (fun rule => rule.1.isPrefixOf url && decide (byteLen rule.1 > 0)) =
      rules.filter (fun rule => rule.1.isPrefixOf url && !rule.1.isEmpty) := by
    apply List.filter_congr
    intro x _
    by_cases h1 : x.1.isPrefixOf url = true
    · by_cases h2 : x.1 = []
      · simp [h1, h2, byteLen]
      · have h3 : 0 < byteLen x.1 := (byteLen_pos_iff x.1).mpr h2
        have h4 : x.1.isEmpty = false := by
          cases hx : x.1 with
          | nil => exact absurd hx h2
          | cons a l => simp
        simp [h1, h3, h4]
    · simp only [Bool.not_eq_true] at h1
      simp [h1]
  rw [hcongr]

/-- Concrete input refuting C9 as stated: the rule with the empty
`old_prefix` is a literal prefix of `"u"` and is the longest (indeed
only) match, so by the claim it should rewrite `"u"` to `"Xu"` — but
`longest_match_replace` never selects it (`prefix.len() > best_len`
starts from `best_len = 0`), so `alias_url` returns the URL unchanged. -/
theorem c9_counterexample :
    specLongestMatchReplace "u".toList [(([] : Str), "X".toList)] =
      some "Xu".toList ∧
    longestMatchReplace "u".toList [(([] : Str), "X".toList)] = none ∧
    aliasUrl "u".toList ⟨[(([] : Str), "X".toList)], []⟩ false = "u".toList := by
  refine ⟨by decide, by decide, by decide⟩

/-- C9 (amended): among all rules whose `old_prefix` is a nonempty
literal prefix of the URL, `longest_match_replace` selects the one with
the longest `old_prefix` (ties broken by first-seen order) and replaces
that prefix with `new_prefix`; it never applies a shorter-prefix rule
when a longer-prefix rule also matches, and leaves the URL unchanged
when no rule with a nonempty prefix matches (a rule with an empty
`old_prefix` is never applied). `alias_url` is that selection applied to
the consulted rule lists (push rules first when resolving for push). -/
theorem c9_longest_match (url : Str) :
    (∀ rules, longestMatchReplace url rules = specLongestMatchReplaceNe url rules) ∧
    (∀ rw forPush, aliasUrl url rw forPush =
      (match (if forPush then specLongestMatchReplaceNe url rw.push_instead_of
              else none) with
       | some result => result
       | none =>
         match specLongestMatchReplaceNe url rw.instead_of with
         | some result => result
         | none => url)) := by
  have key : ∀ rules, longestMatchReplace url rules =
      specLongestMatchReplaceNe url rules := by
    intro rules
    simp only [longestMatchReplace, specLongestMatchReplaceNe]
    rw [lmr_foldl_eq_selA url rules 0 none,
      selA_eq_specA (fun r : Str × Str => r.1.isPrefixOf url) (fun r => byteLen r.1)
        rules 0,
      specA_zero_eq_ne]
    cases specSelectRuleNe url rules <;> rfl
  refine ⟨key, ?_⟩
  intro rw forPush
  simp only [aliasUrl, key]

/-! ## SSH query backend (`review_query.rs`, module `ssh`) -/

/-- JSON values as produced by `serde_json` for the SSH protocol model.
Numbers are modelled as integers: every numeric field the SSH mapping
layer consumes is integral (epoch seconds, patchset numbers, counts). -/
inductive Json where
  | null
  | bool (b : Bool)
  | num (n : Int)
  | str (s : Str)
  | arr (elems : List Json)
  | obj (fields : List (Str × Json))

/-- Field lookup in a JSON object, first occurrence wins. -/
def getField (fields : List (Str × Json)) (k : Str) : Option Json :=
  (fields.find? (fun f => f.1 == k)).map (fun f => f.2)

/-- Serde semantics for an `Option<String>` struct field: missing or
`null` gives `None`, a string gives `Some`, anything else is a type
error. -/
def deOptString (fields : List (Str × Json)) (k : Str) : Except String (Option Str) :=
  match getField fields k with
  | none => .ok none
  | some .null => .ok none
  | some (.str s) => .ok (some s)
  | some _ => .error "invalid type: expected string"

/-- Serde semantics for deriving `AccountInfo` (gerrit.rs): the
`_account_id` field is a mandatory `i64` — an owner object without it is
a deserialization error — while name/email/username/display_name are
optional strings. -/
def deAccountInfo (j : Json) : Except String AccountInfo :=
  match j with
  | .obj fields =>
    match getField fields "_account_id".toList with
    | some (.num n) => do
      let name ← deOptString fields "name".toList
      let email ← deOptString fields "email".toList
      let username ← deOptString fields "username".toList
      let display_name ← deOptString fields "display_name".toList
      .ok { account_id := n, name := name, email := email,
            username := username, display_name := display_name }
    | some _ => .error "invalid type for field _account_id"
    | none => .error "missing field _account_id"
  | _ => .error "invalid type: expected struct AccountInfo"

/-- Serde semantics for an `Option<AccountInfo>` struct field. -/
def deOptAccountInfo (fields : List (Str × Json)) (k : Str) :
    Except String (Option AccountInfo) :=
  match getField fields k with
  | none => .ok none
  | some .null => .ok none
  | some j => (deAccountInfo j).map some

/-- Model of `SshPatchSet` (review_query.rs). -/
structure SshPatchSet where
  number : Option Int
  git_ref : Option Str
  revision : Option Str
deriving DecidableEq, Repr

/-- Digits-only string to number, for `str::parse::<i32>` modelling. -/
def digitsToNat? (s : Str) : Option Nat :=
  if s.isEmpty then none
  else s.foldl (fun acc c =>
    acc.bind (fun a => if c.isDigit then some (a * 10 + (c.toNat - '0'.toNat)) else none))
    (some 0)

/-- Model of Rust `str::parse::<i32>`: optional sign, decimal digits,
result within the `i32` range. -/
def parseI32 (s : Str) : Option Int :=
  match s with
  | '+' :: rest =>
    (digitsToNat? rest).bind (fun v =>
      if v ≤ 2147483647 then some (Int.ofNat v) else none)
  | '-' :: rest =>
    (digitsToNat? rest).bind (fun v =>
      if v ≤ 2147483648 then some (-(Int.ofNat v)) else none)
  | _ =>
    (digitsToNat? s).bind (fun v =>
      if v ≤ 2147483647 then some (Int.ofNat v) else none)

/-- Model of `deserialize_optional_i32_flexible` (review_query.rs) on a
struct field without a `default` attribute: the field must be present
(serde "missing field" error otherwise); `null` gives `None`; a number is
range-checked into `i32`; a string is parsed as `i32`; any other JSON
value gives `None` (the catch-all arm of the Rust function). -/
def deFlexI32Field (fields : List (Str × Json)) (k : Str) : Except String (Option Int) :=
  match getField fields k with
  | none => .error "missing field number"
  | some .null => .ok none
  | some (.num n) =>
    if -2147483648 ≤ n ∧ n ≤ 2147483647 then .ok (some n)
    else .error "patch set number out of range"
  | some (.str s) =>
    match parseI32 s with
    | some v => .ok (some v)
    | none => .error "patch set number not a valid integer"
  | some _ => .ok none

/-- Serde semantics for deriving `SshPatchSet` (review_query.rs):
`number` via the flexible i32 deserializer (mandatory field), `ref` and
`revision` as optional strings. -/
def deSshPatchSet (j : Json) : Except String SshPatchSet :=
  match j with
  | .obj fields => do
    let number ← deFlexI32Field fields "number".toList
    let git_ref ← deOptString fields "ref".toList
    let revision ← deOptString fields "revision".toList
    .ok { number := number, git_ref := git_ref, revision := revision }
  | _ => .error "invalid type: expected struct SshPatchSet"

/-- Serde semantics for an `Option<SshPatchSet>` struct field. -/
def deOptSshPatchSet (fields : List (Str × Json)) (k : Str) :
    Except String (Option SshPatchSet) :=
  match getField fields k with
  | none => .ok none
  | some .null => .ok none
  | some j => (deSshPatchSet j).map some

/-- Serde semantics for an `Option<Vec<SshPatchSet>>` struct field. -/
def deOptSshPatchSets (fields : List (Str × Json)) (k : Str) :
    Except String (Option (List SshPatchSet)) :=
  match getField fields k with
  | none => .ok none
  | some .null => .ok none
  | some (.arr elems) => (elems.mapM deSshPatchSet).map some
  | some _ => .error "invalid type: expected a sequence"

/-- Decimal rendering of an integer, for `i64::to_string`. -/
def intToStr (n : Int) : Str := (toString n).toList

/-- Model of `deserialize_optional_string_flexible` with `default` and a
serde `alias` (review_query.rs): a missing field (under both names) gives
`None`; `null` gives `None`; a string is kept; an integer is rendered in
decimal; any other value gives `None`. -/
def deFlexStringField (fields : List (Str × Json)) (k aliasKey : Str) :
    Except String (Option Str) :=
  match (getField fields k).orElse (fun _ => getField fields aliasKey) with
  | none => .ok none
  | some .null => .ok none
  | some (.str s) => .ok (some s)
  | some (.num n) => .ok (some (intToStr n))
  | some _ => .ok none

/-- Serde semantics for an `Option<i64>` field with an alias. -/
def deOptI64Field (fields : List (Str × Json)) (k aliasKey : Str) :
    Except String (Option Int) :=
  match (getField fields k).orElse (fun _ => getField fields aliasKey) with
  | none => .ok none
  | some .null => .ok none
  | some (.num n) => .ok (some n)
  | some _ => .error "invalid type: expected i64"

/-- Model of `SshChangeRaw` (review_query.rs). -/
structure SshChangeRaw where
  number : Option Int
  id : Option Str
  project : Option Str
  branch : Option Str
  change_id : Option Str
  subject : Option Str
  status : Option Str
  topic : Option Str
  created : Option Str
  updated : Option Str
  owner : Option AccountInfo
  current_patch_set : Option SshPatchSet
  patch_sets : Option (List SshPatchSet)
deriving DecidableEq, Repr

/-- Serde semantics for deriving `SshChangeRaw` (review_query.rs):
every field optional; `number` aliased to `_number`; `created`/`updated`
aliased to `createdOn`/`lastUpdated` with the flexible string
deserializer; `owner` an optional `AccountInfo`; `currentPatchSet` an
optional `SshPatchSet`; `patchSets` an optional list of them. -/
def deSshChangeRaw (j : Json) : Except String SshChangeRaw :=
  match j with
  | .obj fields => do
    let number ← deOptI64Field fields "number".toList "_number".toList
    let id ← deOptString fields "id".toList
    let project ← deOptString fields "project".toList
    let branch ← deOptString fields "branch".toList
    let change_id ← deOptString fields "change_id".toList
    let subject ← deOptString fields "subject".toList
    let status ← deOptString fields "status".toList
    let topic ← deOptString fields "topic".toList
    let created ← deFlexStringField fields "created".toList "createdOn".toList
    let updated ← deFlexStringField fields "updated".toList "lastUpdated".toList
    let owner ← deOptAccountInfo fields "owner".toList
    let current_patch_set ← deOptSshPatchSet fields "currentPatchSet".toList
    let patch_sets ← deOptSshPatchSets fields "patchSets".toList
    .ok { number := number, id := id, project := project, branch := branch,
          change_id := change_id, subject := subject, status := status,
          topic := topic, created := created, updated := updated,
          owner := owner, current_patch_set := current_patch_set,
          patch_sets := patch_sets }
  | _ => .error "invalid type: expected struct SshChangeRaw"

/-- `HashMap::insert` on the association-list model: overwrite the value
of an existing key, otherwise append a new entry. -/
def assocInsert (k : Str) (v : RevisionInfo) (l : List (Str × RevisionInfo)) :
    List (Str × RevisionInfo) :=
  if l.any (fun kv => kv.1 == k) then
    l.map (fun kv => if kv.1 == k then (k, v) else kv)
  else l ++ [(k, v)]

/-- One iteration of the `for ps in patch_sets` loop of
`ssh_change_to_change_info` (review_query.rs): for a complete patchset
entry (revision, number and ref all present) insert a synthesized
revision, update `current` when the entry's number equals
`currentPatchSet`'s number (last match wins), and track the highest
patchset number; incomplete entries are skipped. -/
def psStep (cps : Option SshPatchSet)
    (acc : List (Str × RevisionInfo) × Option Str × Option Int) (ps : SshPatchSet) :
    List (Str × RevisionInfo) × Option Str × Option Int :=
  match ps.revision, ps.number, ps.git_ref with
  | some rev, some num, some r =>
    let revs := assocInsert rev { number := some num, git_ref := some r, commit := none } acc.1
    let current := if cps.elim false (fun c => c.number == some num) then some rev else acc.2.1
    let highest := if acc.2.2.elim true (fun h => num > h) then some num else acc.2.2
    (revs, current, highest)
  | _, _, _ => acc

/-- The `(revisions, current_revision)` synthesis of
`ssh_change_to_change_info` (review_query.rs): fold over `patchSets`
collecting complete entries, then determine the current revision by
number match against `currentPatchSet`, falling back to its explicit
`revision` string and then to the revision of the first entry carrying
the highest collected patchset number; with no `patchSets`, synthesize a
single revision from a complete `currentPatchSet`. -/
def sshRevisionsAndCurrent (cps : Option SshPatchSet) :
    Option (List SshPatchSet) → Option (List (Str × RevisionInfo)) × Option Str
  | some patchSets =>
    let st := patchSets.foldl (psStep cps) ([], none, none)
    let current1 :=
      match st.2.1 with
      | some c => some c
      | none => cps.bind (fun c => c.revision)
    let current2 :=
      match current1 with
      | some c => some c
      | none =>
        st.2.2.bind (fun hn =>
          (patchSets.find? (fun ps => ps.number == some hn)).bind
            (fun ps => ps.revision))
    (some st.1, current2)
  | none =>
    match cps with
    | some c =>
      match c.revision, c.number, c.git_ref with
      | some rev, some num, some r =>
        (some [(rev, { number := some num, git_ref := some r, commit := none })],
         some rev)
      | _, _, _ => (none, none)
    | none => (none, none)

/-- Model of `ssh_change_to_change_info` (review_query.rs): synthesize
the `revisions` map and `current_revision`, copy the remaining fields. -/
def sshChangeToChangeInfo (raw : SshChangeRaw) : ChangeInfo :=
  let rc := sshRevisionsAndCurrent raw.current_patch_set raw.patch_sets
  { id := raw.id, project := raw.project, branch := raw.branch,
    change_id := raw.change_id.or raw.id,
    subject := raw.subject, status := raw.status, topic := raw.topic,
    created := raw.created, updated := raw.updated, number := raw.number,
    owner := raw.owner, current_revision := rc.2, revisions := rc.1,
    messages := none, insertions := none, deletions := none }

/-- One line of `ssh ... gerrit query --format=JSON` output, after the
text-level step of `parse_ssh_query_output`: a line that does not start
with `{` or fails `serde_json::from_str` is `nonJson` (it is skipped);
otherwise the parsed JSON value. -/
inductive SshLine where
  | nonJson
  | json (v : Json)

/-- Does a parsed line carry a `type` field (protocol statistics line)? -/
def hasTypeField : Json → Bool
  | .obj fields => (getField fields "type".toList).isSome
  | _ => false

/-- Model of `parse_ssh_query_output` (review_query.rs): skip non-JSON
lines and lines with a `type` field; decode every other line as
`SshChangeRaw` — a decode failure aborts the whole parse with the
"parsing SSH query JSON line" context — and normalize it. -/
def parseSshQueryOutput (lines : List SshLine) : Except String (List ChangeInfo) :=
  match lines with
  | [] => .ok []
  | .nonJson :: rest => parseSshQueryOutput rest
  | .json v :: rest =>
    if hasTypeField v then parseSshQueryOutput rest
    else
      match deSshChangeRaw v with
      | .error e => .error ("parsing SSH query JSON line: " ++ e)
      | .ok raw =>
        match parseSshQueryOutput rest with
        | .error e => .error e
        | .ok changes => .ok (sshChangeToChangeInfo raw :: changes)

/-! ## Theorems: SSH owner without `_account_id` (C1) -/

/-- The owner object of the repository's own
`parse_ssh_query_output_skips_stats_lines` test: name and email but no
`_account_id`. -/
def c1OwnerJson : Json :=
  .obj [("name".toList, .str "Alice".toList),
        ("email".toList, .str "alice@example.com".toList)]

/-- The change line of that test: a change whose owner carries
name/email but no `_account_id`. -/
def c1ChangeLine : Json :=
  .obj [("id".toList, .str "abc".toList),
        ("project".toList, .str "p".toList),
        ("change_id".toList, .str "I123".toList),
        ("subject".toList, .str "Fix bug".toList),
        ("status".toList, .str "NEW".toList),
        ("owner".toList, c1OwnerJson),
        ("currentPatchSet".toList,
          .obj [("number".toList, .num 1),
                ("ref".toList, .str "refs/changes/1/1/1".toList),
                ("revision".toList, .str "abc123".toList)])]

/-- The full SSH output of that test: a stats line, the change line, and
another stats line. -/
def c1Input : List SshLine :=
  [.json (.obj [("type".toList, .str "stats".toList), ("rowCount".toList, .num 2)]),
   .json c1ChangeLine,
   .json (.obj [("type".toList, .str "stats".toList), ("rowCount".toList, .num 2)])]

/-- C1: the claim (and the repository's own test, which asserts this very
input parses successfully) requires `parse_ssh_query_output` to tolerate
an owner without `_account_id` — but `AccountInfo::account_id` is a
mandatory `i64`, so deserializing such an owner fails and the whole parse
returns an error instead of a change list with the owner preserved. -/
theorem c1_ssh_owner_without_account_id :
    deAccountInfo c1OwnerJson = .error "missing field _account_id" ∧
    parseSshQueryOutput c1Input =
      .error "parsing SSH query JSON line: missing field _account_id" := by
  constructor <;> rfl

/-! ## Theorems: current-revision invariant of the SSH normalizer (C2) -/

/-- The data-model invariant of the spec, as a boolean check: when the
`revisions` map is present and non-empty and `current_revision` is
present, `current_revision` is a key of `revisions`. -/
def revisionInvariantB (ci : ChangeInfo) : Bool :=
  match ci.revisions, ci.current_revision with
  | some revs, some cur => revs.isEmpty || revs.any (fun kv => kv.1 == cur)
  | _, _ => true

/-- An `SshChangeRaw` refuting C2 as stated: one complete patchset entry
(number 1, revision `aaa`) and a `currentPatchSet` with number 2 — which
matches no collected entry — and an explicit revision `bbb`. The code's
explicit-revision fallback sets `current_revision = bbb`, which is not a
key of the non-empty synthesized revisions map. -/
def c2Raw : SshChangeRaw :=
  { number := none, id := none, project := none, branch := none, change_id := none,
    subject := none, status := none, topic := none, created := none, updated := none,
    owner := none,
    current_patch_set :=
      some { number := some 2, git_ref := none, revision := some "bbb".toList },
    patch_sets :=
      some [{ number := some 1, git_ref := some "refs/changes/1/1/1".toList,
              revision := some "aaa".toList }] }

/-- Counterexample for C2: the normalizer output violates the invariant
on `c2Raw`. -/
theorem c2_counterexample :
    revisionInvariantB (sshChangeToChangeInfo c2Raw) = false ∧
    (sshChangeToChangeInfo c2Raw).revisions =
      some [("aaa".toList,
        { number := some 1, git_ref := some "refs/changes/1/1/1".toList,
          commit := none })] ∧
    (sshChangeToChangeInfo c2Raw).current_revision = some "bbb".toList := by
  refine ⟨by decide, by decide, by decide⟩

/-- Key membership in the association-list revision map. -/
def keyMem (l : List (Str × RevisionInfo)) (k : Str) : Bool :=
  l.any (fun kv => kv.1 == k)

theorem assocInsert_keyMem_self (r : Str) (v : RevisionInfo)
    (m : List (Str × RevisionInfo)) : keyMem (assocInsert r v m) r = true := by
  simp only [keyMem, assocInsert]
  by_cases hin : m.any (fun kv => kv.1 == r) = true
  · rw [if_pos hin]
    rcases List.any_eq_true.mp hin with ⟨kv, hmem, hkv⟩
    rw [List.any_map]
    refine List.any_eq_true.mpr ⟨kv, hmem, ?_⟩
    simp only [Function.comp_apply, hkv]
    simp
  · rw [if_neg hin]
    simp [List.any_append]

theorem assocInsert_keyMem_mono {m : List (Str × RevisionInfo)} {k : Str}
    (r : Str) (v : RevisionInfo) (h : keyMem m k = true) :
    keyMem (assocInsert r v m) k = true := by
  simp only [keyMem, assocInsert] at *
  by_cases hin : m.any (fun kv => kv.1 == r) = true
  · rw [if_pos hin]
    rcases List.any_eq_true.mp h with ⟨kv, hmem, hkv⟩
    rw [List.any_map]
    refine List.any_eq_true.mpr ⟨kv, hmem, ?_⟩
    simp only [Function.comp_apply]
    by_cases hr : (kv.1 == r) = true
    · have h1 : kv.1 = r := eq_of_beq hr
      have h2 : kv.1 = k := eq_of_beq hkv
      rw [if_pos hr]
      simp [← h1, h2]
    · rw [if_neg hr]
      exact hkv
  · rw [if_neg hin]
    rw [List.any_append]
    simp [h]

/-- A `psStep` iteration either leaves the accumulator unchanged (an
incomplete patchset entry) or processes a complete entry. -/
theorem psStep_cases (cps : Option SshPatchSet)
    (acc : List (Str × RevisionInfo) × Option Str × Option Int) (ps : SshPatchSet) :
    psStep cps acc ps = acc ∨
    ∃ rev num r, ps.revision = some rev ∧ ps.number = some num ∧
      ps.git_ref = some r ∧
      psStep cps acc ps =
        (assocInsert rev { number := some num, git_ref := some r, commit := none } acc.1,
         (if cps.elim false (fun c => c.number == some num) then some rev else acc.2.1),
         (if acc.2.2.elim true (fun h => num > h) then some num else acc.2.2)) := by
  cases hrev : ps.revision with
  | none => left; simp [psStep, hrev]
  | some rev =>
    cases hnum : ps.number with
    | none => left; simp [psStep, hrev, hnum]
    | some num =>
      cases href : ps.git_ref with
      | none => left; simp [psStep, hrev, hnum, href]
      | some r =>
        right
        exact ⟨rev, num, r, rfl, rfl, rfl, by simp [psStep, hrev, hnum, href]⟩

theorem foldl_psStep_keyMem_mono (cps : Option SshPatchSet) :
    ∀ (l : List SshPatchSet) (acc : List (Str × RevisionInfo) × Option Str × Option Int)
      (k : Str), keyMem acc.1 k = true →
      keyMem (l.foldl (psStep cps) acc).1 k = true := by
  intro l
  induction l with
  | nil => intro acc k h; exact h
  | cons ps l ih =>
    intro acc k h
    rw [List.foldl_cons]
    apply ih
    rcases psStep_cases cps acc ps with heq | ⟨rev, num, r, _, _, _, heq⟩
    · rw [heq]; exact h
    · rw [heq]; exact assocInsert_keyMem_mono rev _ h

theorem foldl_psStep_current_keyMem (cps : Option SshPatchSet) :
    ∀ (l : List SshPatchSet) (acc : List (Str × RevisionInfo) × Option Str × Option Int),
      (∀ c, acc.2.1 = some c → keyMem acc.1 c = true) →
      ∀ c, (l.foldl (psStep cps) acc).2.1 = some c →
        keyMem (l.foldl (psStep cps) acc).1 c = true := by
  intro l
  induction l with
  | nil => intro acc hinv c hc; exact hinv c hc
  | cons ps l ih =>
    intro acc hinv c hc
    rw [List.foldl_cons] at hc ⊢
    apply ih (psStep cps acc ps) ?_ c hc
    intro c' hc'
    rcases psStep_cases cps acc ps with heq | ⟨rev, num, r, _, _, _, heq⟩
    · rw [heq] at hc' ⊢
      exact hinv c' hc'
    · rw [heq] at hc' ⊢
      simp only at hc' ⊢
      by_cases hcond : cps.elim false (fun cc => cc.number == some num) = true
      · rw [if_pos hcond] at hc'
        cases hc'
        exact assocInsert_keyMem_self _ _ _
      · rw [if_neg hcond] at hc'
        exact assocInsert_keyMem_mono rev _ (hinv c' hc')

theorem foldl_psStep_current_isSome_mono (cps : Option SshPatchSet) :
    ∀ (l : List SshPatchSet) (acc : List (Str × RevisionInfo) × Option Str × Option Int),
      acc.2.1.isSome = true → (l.foldl (psStep cps) acc).2.1.isSome = true := by
  intro l
  induction l with
  | nil => intro acc h; exact h
  | cons ps l ih =>
    intro acc h
    rw [List.foldl_cons]
    apply ih
    rcases psStep_cases cps acc ps with heq | ⟨rev, num, r, _, _, _, heq⟩
    · rw [heq]; exact h
    · rw [heq]
      simp only
      by_cases hcond : cps.elim false (fun cc => cc.number == some num) = true
      · rw [if_pos hcond]; rfl
      · rw [if_neg hcond]; exact h

theorem foldl_psStep_current_isSome_of_match (cps : Option SshPatchSet) :
    ∀ (l : List SshPatchSet) (acc : List (Str × RevisionInfo) × Option Str × Option Int),
      (∃ ps ∈ l, ∃ rev num r, ps.revision = some rev ∧ ps.number = some num ∧
        ps.git_ref = some r ∧ cps.elim false (fun c => c.number == some num) = true) →
      (l.foldl (psStep cps) acc).2.1.isSome = true := by
  intro l
  induction l with
  | nil => rintro acc ⟨ps, hmem, -⟩; simp at hmem
  | cons p l ih =>
    rintro acc ⟨ps, hmem, rev, num, r, hrev, hnum, href, hcond⟩
    rw [List.foldl_cons]
    rcases List.mem_cons.mp hmem with rfl | hmem'
    · apply foldl_psStep_current_isSome_mono
      rw [show psStep cps acc ps =
          (assocInsert rev { number := some num, git_ref := some r, commit := none }
            acc.1,
           (if cps.elim false (fun c => c.number == some num) then some rev
            else acc.2.1),
           (if acc.2.2.elim true (fun h => num > h) then some num else acc.2.2))
        from by simp [psStep, hrev, hnum, href]]
      simp only
      rw [if_pos hcond]
      rfl
    · exact ih (psStep cps acc p) ⟨ps, hmem', rev, num, r, hrev, hnum, href, hcond⟩

theorem foldl_psStep_highest (cps : Option SshPatchSet) :
    ∀ (l : List SshPatchSet) (acc : List (Str × RevisionInfo) × Option Str × Option Int)
      (h : Int), (l.foldl (psStep cps) acc).2.2 = some h →
      acc.2.2 = some h ∨ ∃ ps ∈ l, ps.number = some h := by
  intro l
  induction l with
  | nil => intro acc h hh; exact Or.inl hh
  | cons p l ih =>
    intro acc h hh
    rw [List.foldl_cons] at hh
    rcases ih (psStep cps acc p) h hh with hstep | ⟨ps, hmem, hnum⟩
    · rcases psStep_cases cps acc p with heq | ⟨rev, num, r, hrev, hnum, href, heq⟩
      · rw [heq] at hstep; exact Or.inl hstep
      · rw [heq] at hstep
        simp only at hstep
        by_cases hcond : acc.2.2.elim true (fun hh => num > hh) = true
        · rw [if_pos hcond] at hstep
          cases hstep
          exact Or.inr ⟨p, by simp, hnum⟩
        · rw [if_neg hcond] at hstep
          exact Or.inl hstep
    · exact Or.inr ⟨ps, by simp [hmem], hnum⟩

theorem foldl_psStep_complete_key (cps : Option SshPatchSet) :
    ∀ (l : List SshPatchSet) (acc : List (Str × RevisionInfo) × Option Str × Option Int)
      (ps : SshPatchSet) (rev : Str), ps ∈ l → ps.revision = some rev →
      ps.number.isSome = true → ps.git_ref.isSome = true →
      keyMem (l.foldl (psStep cps) acc).1 rev = true := by
  intro l
  induction l with
  | nil => intro acc ps rev hmem; simp at hmem
  | cons p l ih =>
    intro acc ps rev hmem hrev hnum href
    rw [List.foldl_cons]
    rcases List.mem_cons.mp hmem with rfl | hmem'
    · obtain ⟨num, hnum'⟩ := Option.isSome_iff_exists.mp hnum
      obtain ⟨r, href'⟩ := Option.isSome_iff_exists.mp href
      apply foldl_psStep_keyMem_mono
      rw [show psStep cps acc ps =
          (assocInsert rev { number := some num, git_ref := some r, commit := none }
            acc.1,
           (if cps.elim false (fun c => c.number == some num) then some rev
            else acc.2.1),
           (if acc.2.2.elim true (fun h => num > h) then some num else acc.2.2))
        from by simp [psStep, hrev, hnum', href']]
      exact assocInsert_keyMem_self _ _ _
    · exact ih (psStep cps acc p) ps rev hmem' hrev hnum href

/-- Invariant of the pair synthesized by `sshRevisionsAndCurrent`, under
the hypotheses that every `patchSets` entry is complete and that a
`currentPatchSet` carrying a revision has a number matching some
`patchSets` entry. -/
theorem sshRevisionsAndCurrent_invariant (cps : Option SshPatchSet)
    (pso : Option (List SshPatchSet))
    (hcomplete : ∀ ps ∈ pso.getD [],
      ps.revision.isSome = true ∧ ps.number.isSome = true ∧ ps.git_ref.isSome = true)
    (hcps : ∀ c, cps = some c → c.revision.isSome = true →
      pso = none ∨ ∃ ps ∈ pso.getD [], ps.number = c.number) :
    ∀ revs cur, (sshRevisionsAndCurrent cps pso).1 = some revs →
      (sshRevisionsAndCurrent cps pso).2 = some cur → keyMem revs cur = true := by
  intro revs cur h1 h2
  cases pso with
  | none =>
    cases hcpsv : cps with
    | none =>
      rw [hcpsv] at h1
      simp [sshRevisionsAndCurrent] at h1
    | some c =>
      rw [hcpsv] at h1 h2
      cases hrev : c.revision with
      | none => simp [sshRevisionsAndCurrent, hrev] at h1
      | some rev =>
        cases hnum : c.number with
        | none => simp [sshRevisionsAndCurrent, hrev, hnum] at h1
        | some num =>
          cases href : c.git_ref with
          | none => simp [sshRevisionsAndCurrent, hrev, hnum, href] at h1
          | some r =>
            simp only [sshRevisionsAndCurrent, hrev, hnum, href] at h1 h2
            cases h1
            cases h2
            simp [keyMem]
  | some l =>
    have hcomp : ∀ ps ∈ l, ps.revision.isSome = true ∧ ps.number.isSome = true ∧
        ps.git_ref.isSome = true := by
      intro ps hmem
      exact hcomplete ps (by simpa using hmem)
    simp only [sshRevisionsAndCurrent] at h1 h2
    cases h1
    cases hst : (l.foldl (psStep cps) ([], none, none)).2.1 with
    | some c0 =>
      rw [hst] at h2
      simp only at h2
      have h2e : c0 = cur := by injection h2
      rw [← h2e]
      exact foldl_psStep_current_keyMem cps l ([], none, none)
        (by intro c hc; cases hc) c0 hst
    | none =>
      rw [hst] at h2
      simp only at h2
      cases hbind : cps.bind (fun c => c.revision) with
      | some c1 =>
        -- currentPatchSet carries a revision: by the matching hypothesis
        -- the fold must have produced a current, contradicting hst
        exfalso
        obtain ⟨c, hcpse, hcrev⟩ := Option.bind_eq_some.mp hbind
        rcases hcps c hcpse (by simp [hcrev]) with hnone | ⟨ps, hmem, hnumeq⟩
        · cases hnone
        · have hmem' : ps ∈ l := by simpa using hmem
          obtain ⟨hrevs, hnums, hrefs⟩ := hcomp ps hmem'
          obtain ⟨rev, hrev⟩ := Option.isSome_iff_exists.mp hrevs
          obtain ⟨num, hnum⟩ := Option.isSome_iff_exists.mp hnums
          obtain ⟨r, href⟩ := Option.isSome_iff_exists.mp hrefs
          have hcond : cps.elim false (fun cc => cc.number == some num) = true := by
            rw [hcpse]
            simp only [Option.elim]
            rw [hnumeq] at hnum
            simp [hnum]
          have hsome := foldl_psStep_current_isSome_of_match cps l ([], none, none)
            ⟨ps, hmem', rev, num, r, hrev, hnum, href, hcond⟩
          rw [hst] at hsome
          simp at hsome
      | none =>
        rw [hbind] at h2
        simp only at h2
        obtain ⟨hn, hhigh, hfind⟩ := Option.bind_eq_some.mp h2
        obtain ⟨ps0, hfind0, hrev0⟩ := Option.bind_eq_some.mp hfind
        have hmem0 : ps0 ∈ l := List.mem_of_find?_eq_some hfind0
        obtain ⟨-, hnums0, hrefs0⟩ := hcomp ps0 hmem0
        exact foldl_psStep_complete_key cps l ([], none, none) ps0 cur hmem0 hrev0
          hnums0 hrefs0

/-- C2 (amended): the SSH normalizer's output satisfies the data-model
invariant — a present `current_revision` keys into a present non-empty
`revisions` map — for every `SshChangeRaw` whose `patchSets` entries each
carry revision, number and ref, and whose `currentPatchSet`, when it
carries a revision string, has a number equal to some `patchSets`
entry's number. (Without these conditions the explicit
`currentPatchSet.revision` fallback, or the highest-number fallback
through an incomplete entry, can set a `current_revision` that is not a
key of the map — see the counterexample.) -/
theorem c2_revision_invariant (raw : SshChangeRaw)
    (hcomplete : ∀ ps ∈ raw.patch_sets.getD [],
      ps.revision.isSome = true ∧ ps.number.isSome = true ∧ ps.git_ref.isSome = true)
    (hcps : ∀ c, raw.current_patch_set = some c → c.revision.isSome = true →
      raw.patch_sets = none ∨ ∃ ps ∈ raw.patch_sets.getD [], ps.number = c.number) :
    revisionInvariantB (sshChangeToChangeInfo raw) = true := by
  have hrev : (sshChangeToChangeInfo raw).revisions =
      (sshRevisionsAndCurrent raw.current_patch_set raw.patch_sets).1 := rfl
  have hcur : (sshChangeToChangeInfo raw).current_revision =
      (sshRevisionsAndCurrent raw.current_patch_set raw.patch_sets).2 := rfl
  rw [revisionInvariantB, hrev, hcur]
  cases h1 : (sshRevisionsAndCurrent raw.current_patch_set raw.patch_sets).1 with
  | none => rfl
  | some revs =>
    cases h2 : (sshRevisionsAndCurrent raw.current_patch_set raw.patch_sets).2 with
    | none => rfl
    | some cur =>
      have := sshRevisionsAndCurrent_invariant raw.current_patch_set raw.patch_sets
        hcomplete hcps revs cur h1 h2
      simp only [keyMem] at this
      simp [this]

/-- A raw SSH change satisfying the amended hypotheses of C2: two
complete patchsets and a `currentPatchSet` whose number 2 matches the
second entry (carrying an explicit revision string). -/
def c2GoodRaw : SshChangeRaw :=
  { number := none, id := none, project := none, branch := none, change_id := none,
    subject := none, status := none, topic := none, created := none, updated := none,
    owner := none,
    current_patch_set :=
      some { number := some 2, git_ref := some "refs/changes/1/1/2".toList,
             revision := some "bbb".toList },
    patch_sets :=
      some [{ number := some 1, git_ref := some "refs/changes/1/1/1".toList,
              revision := some "aaa".toList },
            { number := some 2, git_ref := some "refs/changes/1/1/2".toList,
              revision := some "bbb".toList }] }

/-- Witness for C2 (amended) at `c2GoodRaw`. -/
theorem c2_revision_invariant_witness :
    (∀ ps ∈ c2GoodRaw.patch_sets.getD [],
      ps.revision.isSome = true ∧ ps.number.isSome = true ∧ ps.git_ref.isSome = true) ∧
    revisionInvariantB (sshChangeToChangeInfo c2GoodRaw) = true := by
  refine ⟨by decide, ?_⟩
  exact c2_revision_invariant c2GoodRaw (by decide)
    (by intro c hc hrev; cases hc; right; decide)

/-! ## Comment thread builder (`comments.rs`) -/

/-- Model of `ThreadComment` (comments.rs). -/
structure ThreadComment where
  author : Str
  patch_set : Option Int
  date : Str
  message : Str
deriving DecidableEq, Repr

/-- Model of `CommentThread` (comments.rs). -/
structure CommentThread where
  file : Str
  line : Option Int
  resolved : Bool
  comments : List ThreadComment
deriving DecidableEq, Repr

/-- Stable insertion: the new element walks past every element it is
strictly greater than and lands before the first other one. -/
def insertOrd {α : Type} (gtB : α → α → Bool) (x : α) : List α → List α
  | [] => [x]
  | y :: ys => if gtB x y then y :: insertOrd gtB x ys else x :: y :: ys

/-- Stable insertion sort. Rust's `sort_by`/`sort_by_key` are stable
sorts, and a stable sort's output is uniquely determined by the
comparator and the input order, so this models them faithfully. -/
def isortBy {α : Type} (gtB : α → α → Bool) : List α → List α
  | [] => []
  | x :: xs => insertOrd gtB x (isortBy gtB xs)

/-- The flat list of `(file, comment)` pairs collected by `build_threads`
(comments.rs) from the `comments_by_file` map; the map is modelled as an
association list in some iteration order. -/
def allComments (entries : List (Str × List CommentInfo)) : List (Str × CommentInfo) :=
  entries.flatMap (fun fc => fc.2.map (fun c => (fc.1, c)))

/-- Model of `by_id.contains_key` (comments.rs): some comment carries
this id. -/
def idsContain (entries : List (Str × List CommentInfo)) (p : Str) : Bool :=
  (allComments entries).any (fun fc => fc.2.id == some p)

/-- Model of the `children` map of `build_threads` (comments.rs): the
replies to `p`, in `all_comments` order, collected only when `p`
resolves to a known comment. -/
def childrenOf (entries : List (Str × List CommentInfo)) (p : Str) : List CommentInfo :=
  if idsContain entries p then
    ((allComments entries).filter (fun fc => fc.2.in_reply_to == some p)).map
      (fun fc => fc.2)
  else []

/-- Root predicate of `build_threads` (comments.rs): no reply-to id, or a
dangling one. -/
def isRootP (contains : Str → Bool) (c : CommentInfo) : Bool :=
  match c.in_reply_to with
  | none => true
  | some p => ! contains p

/-- The roots, in `all_comments` order. -/
def rootsOf (entries : List (Str × List CommentInfo)) : List (Str × CommentInfo) :=
  (allComments entries).filter (fun fc => isRootP (idsContain entries) fc.2)

/-- Sort key of the reply sort in `collect_thread` (comments.rs):
`c.updated.as_deref().unwrap_or("")`. -/
def updatedKey (c : CommentInfo) : Str := c.updated.getD []

/-- Comparator of the stable reply sort: a reply goes after another iff
its updated timestamp is strictly greater. -/
def replyGtB (a b : CommentInfo) : Bool := decide (updatedKey b < updatedKey a)

/-- Model of `collect_thread` (comments.rs): visit the comment, then its
replies sorted by updated timestamp, depth-first. The Rust function
recurses without bound (and diverges on cyclic reply data reachable from
a root through duplicated ids); `fuel` bounds the depth, and
`build_threads` passes the total comment count, which suffices for every
input on which the Rust code terminates. The Rust code pushes
`(author, patch_set, unresolved, date, message)` tuples; the model
collects the visited comments and projects the tuple fields afterwards
(`toThreadComment`, `resolvedOf`). -/
def collectThread (children : Str → List CommentInfo) :
    Nat → CommentInfo → List CommentInfo
  | 0, c => [c]
  | fuel + 1, c =>
    c :: (match c.id with
      | none => []
      | some i => (isortBy replyGtB (children i)).flatMap (collectThread children fuel))

/-- Tuple projection of `collect_thread` (comments.rs) into the rendered
thread comment. -/
def toThreadComment (c : CommentInfo) : ThreadComment :=
  { author := (c.author.bind (fun a => a.name)).getD "Unknown".toList,
    patch_set := c.patch_set,
    date := c.updated.getD [],
    message := c.message.getD [] }

/-- The `resolved` flag of `build_threads` (comments.rs): the last
visited comment's `unresolved` tri-state, with absence meaning
unresolved, negated; an empty visit list gives `false`. -/
def resolvedOf (visits : List CommentInfo) : Bool :=
  match visits.getLast? with
  | some c => ! (c.unresolved.getD true)
  | none => false

/-- One thread of `build_threads` (comments.rs), from a root tagged with
its file. -/
def mkThread (children : Str → List CommentInfo) (fuel : Nat)
    (fc : Str × CommentInfo) : CommentThread :=
  let visits := collectThread children fuel fc.2
  { file := fc.1, line := fc.2.line, resolved := resolvedOf visits,
    comments := visits.map toThreadComment }

/-- Comparator of the final thread sort (comments.rs):
`a.file.cmp(&b.file).then(a.line.unwrap_or(0).cmp(&b.line.unwrap_or(0)))`
is `Greater` iff the file is greater, or the files are equal and the
effective line is greater. -/
def threadGtB (a b : CommentThread) : Bool :=
  decide (b.file < a.file) ||
    (a.file == b.file && decide (b.line.getD 0 < a.line.getD 0))

/-- Model of `build_threads` (comments.rs): one thread per root, sorted
stably by file then effective line. -/
def buildThreads (entries : List (Str × List CommentInfo)) : List CommentThread :=
  isortBy threadGtB
    ((rootsOf entries).map
      (mkThread (childrenOf entries) ((allComments entries).length)))

theorem mem_insertOrd {α : Type} (gtB : α → α → Bool) (x a : α) :
    ∀ l, a ∈ insertOrd gtB x l ↔ a = x ∨ a ∈ l := by
  intro l
  induction l with
  | nil => simp [insertOrd]
  | cons y ys ih =>
    simp only [insertOrd]
    by_cases h : gtB x y = true
    · rw [if_pos h]
      simp only [List.mem_cons, ih]
      tauto
    · rw [if_neg h]
      simp only [List.mem_cons]

theorem mem_isortBy {α : Type} (gtB : α → α → Bool) (a : α) :
    ∀ l, a ∈ isortBy gtB l ↔ a ∈ l := by
  intro l
  induction l with
  | nil => simp [isortBy]
  | cons x xs ih =>
    simp only [isortBy, mem_insertOrd, ih, List.mem_cons]

theorem collectThread_ne_nil (children : Str → List CommentInfo) :
    ∀ fuel c, collectThread children fuel c ≠ [] := by
  intro fuel c
  cases fuel <;> simp [collectThread]

theorem resolvedOf_iff (visits : List CommentInfo) :
    resolvedOf visits = true ↔
      ∃ c, visits.getLast? = some c ∧ c.unresolved = some false := by
  cases hl : visits.getLast? with
  | none => simp [resolvedOf, hl]
  | some c =>
    simp only [resolvedOf, hl]
    cases hu : c.unresolved with
    | none => simp [hu]
    | some b => cases b <;> simp [hu]

/-- C7: every thread produced by `build_threads` arises as `mkThread` of
one of the roots, and its `resolved` flag is `true` exactly when the
last comment of that root's actual flattened visit list (the
`collect_thread` output computed from the program's own children map and
fuel) has `unresolved` explicitly `false`; a last comment with
`unresolved` explicitly `true` or absent gives `resolved = false`, the
visit list is never empty, and an empty list would be treated as
unresolved (`resolvedOf [] = false`). -/
theorem c7_thread_resolved (entries : List (Str × List CommentInfo))
    (t : CommentThread) (ht : t ∈ buildThreads entries) :
    resolvedOf [] = false ∧
    ∃ fc ∈ rootsOf entries,
      t = mkThread (childrenOf entries) ((allComments entries).length) fc ∧
      t.comments =
        (collectThread (childrenOf entries) ((allComments entries).length)
          fc.2).map toThreadComment ∧
      collectThread (childrenOf entries) ((allComments entries).length) fc.2 ≠ [] ∧
      (t.resolved = true ↔
        ∃ c, (collectThread (childrenOf entries) ((allComments entries).length)
          fc.2).getLast? = some c ∧ c.unresolved = some false) := by
  refine ⟨rfl, ?_⟩
  rw [buildThreads] at ht
  have ht' := (mem_isortBy _ _ _).mp ht
  rcases List.mem_map.mp ht' with ⟨fc, hfc, rfl⟩
  exact ⟨fc, hfc, rfl, rfl, collectThread_ne_nil _ _ _, resolvedOf_iff _⟩

/-- Entries used to witness C7: a single comment thread whose only
comment is explicitly resolved. -/
def c7Entries : List (Str × List CommentInfo) :=
  [("f.rs".toList,
    [{ id := some "c1".toList, path := some "f.rs".toList, line := some 1,
       range := none, in_reply_to := none, message := some "Done".toList,
       updated := some "2025".toList, author := none, patch_set := some 1,
       unresolved := some false }])]

/-- The thread `build_threads` produces from `c7Entries`. -/
def c7Thread : CommentThread :=
  { file := "f.rs".toList, line := some 1, resolved := true,
    comments := [{ author := "Unknown".toList, patch_set := some 1,
                   date := "2025".toList, message := "Done".toList }] }

/-- Witness for C7 at `c7Entries`. -/
theorem c7_thread_resolved_witness :
    (c7Thread ∈ buildThreads c7Entries) ∧
    (resolvedOf [] = false ∧
      ∃ fc ∈ rootsOf c7Entries,
        c7Thread = mkThread (childrenOf c7Entries) ((allComments c7Entries).length) fc ∧
        c7Thread.comments =
          (collectThread (childrenOf c7Entries) ((allComments c7Entries).length)
            fc.2).map toThreadComment ∧
        collectThread (childrenOf c7Entries) ((allComments c7Entries).length)
          fc.2 ≠ [] ∧
        (c7Thread.resolved = true ↔
          ∃ c, (collectThread (childrenOf c7Entries) ((allComments c7Entries).length)
            fc.2).getLast? = some c ∧ c.unresolved = some false)) :=
  ⟨by decide, c7_thread_resolved c7Entries c7Thread (by decide)⟩

/-! ## Theorems: determinism of build_threads (C3) -/

/-- A root comment in file `a`. -/
def c3Root : CommentInfo :=
  { id := some "c1".toList, path := some "a".toList, line := some 1, range := none,
    in_reply_to := none, message := some "m1".toList, updated := some "1".toList,
    author := none, patch_set := none, unresolved := some true }

/-- A reply to `c1` living in file `b`, timestamp `T`. -/
def c3ReplyB : CommentInfo :=
  { id := some "c2".toList, path := some "b".toList, line := some 1, range := none,
    in_reply_to := some "c1".toList, message := some "m2".toList,
    updated := some "T".toList, author := none, patch_set := none,
    unresolved := some true }

/-- A reply to `c1` living in file `c`, same timestamp `T`. -/
def c3ReplyC : CommentInfo :=
  { id := some "c3".toList, path := some "c".toList, line := some 1, range := none,
    in_reply_to := some "c1".toList, message := some "m3".toList,
    updated := some "T".toList, author := none, patch_set := none,
    unresolved := some true }

/-- One iteration order of the comments-by-file map. -/
def c3Entries1 : List (Str × List CommentInfo) :=
  [("a".toList, [c3Root]), ("b".toList, [c3ReplyB]), ("c".toList, [c3ReplyC])]

/-- The same map in another iteration order. -/
def c3Entries2 : List (Str × List CommentInfo) :=
  [("a".toList, [c3Root]), ("c".toList, [c3ReplyC]), ("b".toList, [c3ReplyB])]

/-- Counterexample for C3 as stated: the two iteration orders of the same
map produce different thread lists. The two replies to `c1` live in other
files than their parent and tie on the update timestamp, so the stable
reply sort keeps their first-seen order — which is the map iteration
order. -/
theorem c3_counterexample :
    c3Entries1.Perm c3Entries2 ∧
    (c3Entries1.map Prod.fst).Nodup ∧
    buildThreads c3Entries1 ≠ buildThreads c3Entries2 :=
  ⟨List.Perm.cons _ (List.Perm.swap _ _ _), by decide, by decide⟩

theorem threadGtB_eq_true_iff (a b : CommentThread) :
    threadGtB a b = true ↔
      (b.file < a.file ∨ (a.file = b.file ∧ b.line.getD 0 < a.line.getD 0)) := by
  simp [threadGtB, Bool.or_eq_true, Bool.and_eq_true, decide_eq_true_eq, beq_iff_eq]

theorem threadGtB_trans (a b c : CommentThread)
    (h1 : threadGtB a b = true) (h2 : threadGtB b c = true) : threadGtB a c = true := by
  rw [threadGtB_eq_true_iff] at h1 h2 ⊢
  rcases h1 with h1 | ⟨h1e, h1l⟩ <;> rcases h2 with h2 | ⟨h2e, h2l⟩
  · exact Or.inl (lt_trans h2 h1)
  · exact Or.inl (h2e ▸ h1)
  · exact Or.inl (h1e.symm ▸ h2)
  · exact Or.inr ⟨h1e.trans h2e, lt_trans h2l h1l⟩

theorem threadGtB_asymm (a b : CommentThread) (h : threadGtB a b = true) :
    threadGtB b a = false := by
  cases hb : threadGtB b a with
  | false => rfl
  | true =>
    exfalso
    rw [threadGtB_eq_true_iff] at h hb
    rcases h with h1 | ⟨h1e, h1l⟩ <;> rcases hb with h2 | ⟨h2e, h2l⟩
    · exact lt_asymm h1 h2
    · exact lt_irrefl _ (h2e ▸ h1)
    · exact lt_irrefl _ (h1e ▸ h2)
    · exact lt_asymm h1l h2l

theorem threadGtB_total_of_file_ne (a b : CommentThread) (h : a.file ≠ b.file) :
    threadGtB a b = true ∨ threadGtB b a = true := by
  rcases lt_trichotomy a.file b.file with hl | he | hg
  · right; rw [threadGtB_eq_true_iff]; exact Or.inl hl
  · exact absurd he h
  · left; rw [threadGtB_eq_true_iff]; exact Or.inl hg

theorem insertOrd_comm {α : Type} {gtB : α → α → Bool}
    (htrans : ∀ x y z, gtB x y = true → gtB y z = true → gtB x z = true)
    (hasym : ∀ x y, gtB x y = true → gtB y x = false)
    (a b : α) (hba : gtB b a = true) :
    ∀ l, insertOrd gtB a (insertOrd gtB b l) = insertOrd gtB b (insertOrd gtB a l) := by
  intro l
  induction l with
  | nil =>
    show insertOrd gtB a [b] = insertOrd gtB b [a]
    simp only [insertOrd]
    rw [if_neg (by simp [hasym b a hba]), if_pos hba]
  | cons z zs ih =>
    by_cases haz : gtB a z = true
    · have hbz : gtB b z = true := htrans b a z hba haz
      have e1 : insertOrd gtB b (z :: zs) = z :: insertOrd gtB b zs := by
        simp only [insertOrd]; rw [if_pos hbz]
      have e2 : insertOrd gtB a (z :: zs) = z :: insertOrd gtB a zs := by
        simp only [insertOrd]; rw [if_pos haz]
      have e3 : insertOrd gtB a (z :: insertOrd gtB b zs) =
          z :: insertOrd gtB a (insertOrd gtB b zs) := by
        simp only [insertOrd]; rw [if_pos haz]
      have e4 : insertOrd gtB b (z :: insertOrd gtB a zs) =
          z :: insertOrd gtB b (insertOrd gtB a zs) := by
        simp only [insertOrd]; rw [if_pos hbz]
      rw [e1, e2, e3, e4, ih]
    · by_cases hbz : gtB b z = true
      · have e1 : insertOrd gtB b (z :: zs) = z :: insertOrd gtB b zs := by
          simp only [insertOrd]; rw [if_pos hbz]
        have e2 : insertOrd gtB a (z :: insertOrd gtB b zs) =
            a :: z :: insertOrd gtB b zs := by
          simp only [insertOrd]; rw [if_neg haz]
        have e3 : insertOrd gtB a (z :: zs) = a :: z :: zs := by
          simp only [insertOrd]; rw [if_neg haz]
        have e4 : insertOrd gtB b (a :: z :: zs) = a :: insertOrd gtB b (z :: zs) := by
          simp only [insertOrd]; rw [if_pos hba]
        rw [e1, e2, e3, e4, e1]
      · have e1 : insertOrd gtB b (z :: zs) = b :: z :: zs := by
          simp only [insertOrd]; rw [if_neg hbz]
        have e2 : insertOrd gtB a (b :: z :: zs) = a :: b :: z :: zs := by
          simp only [insertOrd]; rw [if_neg (by simp [hasym b a hba])]
        have e3 : insertOrd gtB a (z :: zs) = a :: z :: zs := by
          simp only [insertOrd]; rw [if_neg haz]
        have e4 : insertOrd gtB b (a :: z :: zs) = a :: insertOrd gtB b (z :: zs) := by
          simp only [insertOrd]; rw [if_pos hba]
        rw [e1, e2, e3, e4, e1]

theorem insertOrd_foldr_comm {α : Type} {gtB : α → α → Bool}
    (htrans : ∀ x y z, gtB x y = true → gtB y z = true → gtB x z = true)
    (hasym : ∀ x y, gtB x y = true → gtB y x = false) (a : α) :
    ∀ (B l : List α), (∀ b ∈ B, gtB a b = true ∨ gtB b a = true) →
      insertOrd gtB a (B.foldr (insertOrd gtB) l) =
        B.foldr (insertOrd gtB) (insertOrd gtB a l) := by
  intro B
  induction B with
  | nil => intro l _; rfl
  | cons b B' ih =>
    intro l hn
    simp only [List.foldr_cons]
    have hcom : insertOrd gtB a (insertOrd gtB b (B'.foldr (insertOrd gtB) l)) =
        insertOrd gtB b (insertOrd gtB a (B'.foldr (insertOrd gtB) l)) := by
      rcases hn b (by simp) with hab | hba
      · exact (insertOrd_comm htrans hasym b a hab _).symm
      · exact insertOrd_comm htrans hasym a b hba _
    rw [hcom, ih l (fun x hx => hn x (by simp [hx]))]

theorem foldr_insertOrd_blocks_comm {α : Type} {gtB : α → α → Bool}
    (htrans : ∀ x y z, gtB x y = true → gtB y z = true → gtB x z = true)
    (hasym : ∀ x y, gtB x y = true → gtB y x = false) :
    ∀ (B A l : List α), (∀ a ∈ A, ∀ b ∈ B, gtB a b = true ∨ gtB b a = true) →
      B.foldr (insertOrd gtB) (A.foldr (insertOrd gtB) l) =
        A.foldr (insertOrd gtB) (B.foldr (insertOrd gtB) l) := by
  intro B
  induction B with
  | nil => intro A l _; rfl
  | cons b B' ih =>
    intro A l hn
    simp only [List.foldr_cons]
    rw [ih A l (fun a ha b' hb' => hn a ha b' (by simp [hb']))]
    exact insertOrd_foldr_comm htrans hasym b A _
      (fun x hx => (hn x hx b (by simp)).symm)

theorem isortBy_append {α : Type} (gtB : α → α → Bool) :
    ∀ (A B : List α),
      isortBy gtB (A ++ B) = A.foldr (insertOrd gtB) (isortBy gtB B) := by
  intro A B
  induction A with
  | nil => rfl
  | cons x A' ih =>
    simp only [List.cons_append, isortBy, List.foldr_cons]
    rw [show List.append A' B = A' ++ B from rfl, ih]

theorem isortBy_flatten_perm {α : Type} (gtB : α → α → Bool)
    (htrans : ∀ x y z, gtB x y = true → gtB y z = true → gtB x z = true)
    (hasym : ∀ x y, gtB x y = true → gtB y x = false) :
    ∀ {bs₁ bs₂ : List (List α)}, bs₁.Perm bs₂ →
      bs₁.Pairwise (fun A B => ∀ a ∈ A, ∀ b ∈ B, gtB a b = true ∨ gtB b a = true) →
      isortBy gtB bs₁.flatten = isortBy gtB bs₂.flatten := by
  intro bs₁ bs₂ hperm
  induction hperm with
  | nil => intro _; rfl
  | cons x hp ih =>
    intro hpw
    simp only [List.flatten_cons]
    rw [isortBy_append, isortBy_append, ih (List.pairwise_cons.mp hpw).2]
  | swap A B l =>
    intro hpw
    simp only [List.flatten_cons]
    rw [isortBy_append, isortBy_append, isortBy_append, isortBy_append]
    have hR : ∀ a ∈ B, ∀ b ∈ A, gtB a b = true ∨ gtB b a = true :=
      (List.pairwise_cons.mp hpw).1 A (by simp)
    exact foldr_insertOrd_blocks_comm htrans hasym B A _
      (fun a ha b hb => (hR b hb a ha).symm)
  | trans h1 h2 ih1 ih2 =>
    intro hpw
    have hsymm : ∀ {X Y : List α},
        (∀ a ∈ X, ∀ b ∈ Y, gtB a b = true ∨ gtB b a = true) →
        ∀ a ∈ Y, ∀ b ∈ X, gtB a b = true ∨ gtB b a = true :=
      fun h a ha b hb => (h b hb a ha).symm
    rw [ih1 hpw, ih2 ((h1.pairwise_iff hsymm).mp hpw)]

theorem flatMap_filter {α β : Type} (g : α → List β) (p : β → Bool) :
    ∀ l : List α, (l.flatMap g).filter p = l.flatMap (fun x => (g x).filter p) := by
  intro l
  induction l with
  | nil => rfl
  | cons x xs ih => simp only [List.flatMap_cons, List.filter_append, ih]

theorem flatMap_map {α β γ : Type} (g : α → List β) (f : β → γ) :
    ∀ l : List α, (l.flatMap g).map f = l.flatMap (fun x => (g x).map f) := by
  intro l
  induction l with
  | nil => rfl
  | cons x xs ih => simp only [List.flatMap_cons, List.map_append, ih]

theorem mem_allComments {entries : List (Str × List CommentInfo)} {f : Str}
    {c : CommentInfo} :
    (f, c) ∈ allComments entries ↔ ∃ cs, (f, cs) ∈ entries ∧ c ∈ cs := by
  simp only [allComments, List.mem_flatMap, List.mem_map]
  constructor
  · rintro ⟨⟨f', cs⟩, hmem, c', hc', heq⟩
    injection heq with he1 he2
    subst he1
    subst he2
    exact ⟨cs, hmem, hc'⟩
  · rintro ⟨cs, hmem, hc⟩
    exact ⟨(f, cs), hmem, c, hc, rfl⟩

theorem allComments_perm {e₁ e₂ : List (Str × List CommentInfo)} (h : e₁.Perm e₂) :
    (allComments e₁).Perm (allComments e₂) := by
  simp only [allComments, List.flatMap_def]
  exact (h.map _).flatten

theorem any_eq_of_perm {α : Type} {l₁ l₂ : List α} (h : l₁.Perm l₂) (p : α → Bool) :
    l₁.any p = l₂.any p := by
  cases h1 : l₁.any p with
  | true =>
    rcases List.any_eq_true.mp h1 with ⟨x, hx, hpx⟩
    exact (List.any_eq_true.mpr ⟨x, h.mem_iff.mp hx, hpx⟩).symm
  | false =>
    cases h2 : l₂.any p with
    | false => rfl
    | true =>
      rcases List.any_eq_true.mp h2 with ⟨x, hx, hpx⟩
      exact absurd (List.any_eq_true.mpr ⟨x, h.mem_iff.mpr hx, hpx⟩) (by simp [h1])

theorem idsContain_perm {e₁ e₂ : List (Str × List CommentInfo)} (h : e₁.Perm e₂) :
    idsContain e₁ = idsContain e₂ := by
  funext p
  exact any_eq_of_perm (allComments_perm h) _

theorem flatten_filter_ne_nil {β : Type} :
    ∀ ls : List (List β), (ls.filter (fun x => !x.isEmpty)).flatten = ls.flatten := by
  intro ls
  induction ls with
  | nil => rfl
  | cons a t ih =>
    cases a with
    | nil => simpa using ih
    | cons x xs =>
      rw [List.filter_cons_of_pos (by simp)]
      simp only [List.flatten_cons, ih]

theorem eq_of_perm_length_le_one {β : Type} {l₁ l₂ : List β} (h : l₁.Perm l₂)
    (hl : l₁.length ≤ 1) : l₁ = l₂ := by
  cases l₁ with
  | nil => rw [(h.symm.eq_nil)]
  | cons a t =>
    cases t with
    | nil => exact ((List.perm_singleton).mp h.symm).symm
    | cons b t' => simp at hl

theorem flatten_eq_of_perm_le_one {β : Type} {ls₁ ls₂ : List (List β)}
    (h : ls₁.Perm ls₂) (hle : (ls₁.filter (fun x => !x.isEmpty)).length ≤ 1) :
    ls₁.flatten = ls₂.flatten := by
  rw [← flatten_filter_ne_nil ls₁, ← flatten_filter_ne_nil ls₂,
    eq_of_perm_length_le_one (h.filter _) hle]

theorem count_nonempty_blocks_le_one {β : Type}
    (G : Str × List CommentInfo → List β) (f₀ : Str) :
    ∀ l : List (Str × List CommentInfo), (l.map Prod.fst).Nodup →
      (∀ b ∈ l, G b ≠ [] → b.1 = f₀) →
      ((l.map G).filter (fun x => !x.isEmpty)).length ≤ 1 := by
  intro l
  induction l with
  | nil => intro _ _; simp
  | cons b t ih =>
    intro hnd hcond
    simp only [List.map_cons] at hnd ⊢
    by_cases hGb : G b = []
    · rw [List.filter_cons_of_neg (by simp [hGb])]
      exact ih (List.nodup_cons.mp hnd).2 (fun b' hb' => hcond b' (by simp [hb']))
    · rw [List.filter_cons_of_pos (by simpa using hGb)]
      have hrest : (t.map G).filter (fun x => !x.isEmpty) = [] := by
        rw [List.filter_eq_nil_iff]
        intro a ha
        rcases List.mem_map.mp ha with ⟨b', hb', rfl⟩
        intro hcontra
        have hne : G b' ≠ [] := by
          intro h0
          rw [h0] at hcontra
          simp at hcontra
        have h1 := hcond b (by simp) hGb
        have h2 := hcond b' (by simp [hb']) hne
        have hmem : b.1 ∈ t.map Prod.fst :=
          List.mem_map.mpr ⟨b', hb', by rw [h2, ← h1]⟩
        exact (List.nodup_cons.mp hnd).1 hmem
      rw [hrest]
      simp

theorem childrenOf_blocks (entries : List (Str × List CommentInfo)) (p : Str) :
    ((allComments entries).filter (fun fc => fc.2.in_reply_to == some p)).map
        (fun fc => fc.2) =
      (entries.map (fun b => b.2.filter (fun c => c.in_reply_to == some p))).flatten := by
  simp only [allComments]
  rw [flatMap_filter, flatMap_map, List.flatMap_def]
  congr 1
  apply List.map_congr_left
  intro b _
  rw [List.filter_map, List.map_map]
  have hide : ((fun fc : Str × CommentInfo => fc.2) ∘ fun c => (b.1, c)) = id := rfl
  have hpc : ((fun fc : Str × CommentInfo => fc.2.in_reply_to == some p) ∘
      fun c => (b.1, c)) = fun c => c.in_reply_to == some p := rfl
  rw [hide, hpc, List.map_id]

theorem childrenOf_eq_of_perm {e₁ e₂ : List (Str × List CommentInfo)}
    (hperm : e₁.Perm e₂) (hkeys : (e₁.map Prod.fst).Nodup)
    (hsf : ∀ f c f' c' p, (f, c) ∈ allComments e₁ → (f', c') ∈ allComments e₁ →
      c.in_reply_to = some p → c'.id = some p → f = f') :
    childrenOf e₁ = childrenOf e₂ := by
  funext p
  simp only [childrenOf]
  rw [idsContain_perm hperm]
  by_cases hc : idsContain e₂ p = true
  · rw [if_pos hc, if_pos hc]
    rw [childrenOf_blocks, childrenOf_blocks]
    have hc1 : idsContain e₁ p = true := by rw [idsContain_perm hperm]; exact hc
    rcases List.any_eq_true.mp hc1 with ⟨fc', hmem', hid'⟩
    have hid'' : fc'.2.id = some p := by simpa using hid'
    apply flatten_eq_of_perm_le_one (hperm.map _)
    apply count_nonempty_blocks_le_one _ fc'.1 e₁ hkeys
    intro b hb hGb
    rcases List.exists_mem_of_ne_nil _ hGb with ⟨r, hr⟩
    have hr' := List.mem_filter.mp hr
    have hreply : r.in_reply_to = some p := by simpa using hr'.2
    have hmemAll : (b.1, r) ∈ allComments e₁ := mem_allComments.mpr ⟨b.2, hb, hr'.1⟩
    have hmem'' : (fc'.1, fc'.2) ∈ allComments e₁ := by
      rw [Prod.mk.eta]; exact hmem'
    exact hsf b.1 r fc'.1 fc'.2 p hmemAll hmem'' hreply hid''
  · rw [if_neg hc, if_neg hc]

/-- The threads contributed by one file block of the comments map, given
the (global) contains and children functions. -/
def blockThreads (contains : Str → Bool) (children : Str → List CommentInfo)
    (fuel : Nat) (b : Str × List CommentInfo) : List CommentThread :=
  ((b.2.map (fun c => (b.1, c))).filter (fun fc => isRootP contains fc.2)).map
    (mkThread children fuel)

theorem presort_blocks (entries : List (Str × List CommentInfo)) (fuel : Nat) :
    (rootsOf entries).map (mkThread (childrenOf entries) fuel) =
      (entries.map
        (blockThreads (idsContain entries) (childrenOf entries) fuel)).flatten := by
  simp only [rootsOf, allComments]
  rw [flatMap_filter, flatMap_map, List.flatMap_def]
  congr 1

theorem blockThreads_file (contains : Str → Bool)
    (children : Str → List CommentInfo) (fuel : Nat) (b : Str × List CommentInfo) :
    ∀ t ∈ blockThreads contains children fuel b, t.file = b.1 := by
  intro t ht
  rcases List.mem_map.mp ht with ⟨fc, hfc, rfl⟩
  rcases List.mem_filter.mp hfc with ⟨hfc2, -⟩
  rcases List.mem_map.mp hfc2 with ⟨c, -, rfl⟩
  rfl

/-- C3 (amended): `build_threads` is deterministic across hash-map
iteration orders — two association lists representing the same
comments-by-file map (a permutation with no duplicate file key) produce
identical thread lists — provided every reply whose `in_reply_to`
resolves lives in the same file as every comment bearing that id. (When
a reply lives in a different file than its parent and ties with a
sibling on the update timestamp, the stable reply sort keeps first-seen
order, which depends on the iteration order — see the counterexample.) -/
theorem c3_build_threads_deterministic
    (entries₁ entries₂ : List (Str × List CommentInfo))
    (hperm : entries₁.Perm entries₂)
    (hkeys : (entries₁.map Prod.fst).Nodup)
    (hsf : ∀ f c f' c' p, (f, c) ∈ allComments entries₁ →
      (f', c') ∈ allComments entries₁ →
      c.in_reply_to = some p → c'.id = some p → f = f') :
    buildThreads entries₁ = buildThreads entries₂ := by
  have hcont := idsContain_perm hperm
  have hchild := childrenOf_eq_of_perm hperm hkeys hsf
  have hfuel := (allComments_perm hperm).length_eq
  rw [buildThreads, buildThreads, presort_blocks, presort_blocks,
    ← hcont, ← hchild, ← hfuel]
  apply isortBy_flatten_perm threadGtB threadGtB_trans threadGtB_asymm (hperm.map _)
  have hnd : entries₁.Pairwise (fun b b' => b.1 ≠ b'.1) := List.pairwise_map.mp hkeys
  refine List.pairwise_map.mpr (hnd.imp ?_)
  intro b b' hne t ht t' ht'
  apply threadGtB_total_of_file_ne
  rw [blockThreads_file _ _ _ _ t ht, blockThreads_file _ _ _ _ t' ht']
  exact hne

/-- Witness for C3 (amended): two iteration orders of a two-file map
with no cross-file replies produce the same thread list. -/
theorem c3_build_threads_deterministic_witness :
    ([("a".toList, [c3Root]), ("b".toList, ([] : List CommentInfo))]).Perm
      [("b".toList, ([] : List CommentInfo)), ("a".toList, [c3Root])] ∧
    (([("a".toList, [c3Root]),
       ("b".toList, ([] : List CommentInfo))].map Prod.fst).Nodup) ∧
    buildThreads [("a".toList, [c3Root]), ("b".toList, [])] =
      buildThreads [("b".toList, []), ("a".toList, [c3Root])] := by
  refine ⟨List.Perm.swap _ _ _, by decide, ?_⟩
  apply c3_build_threads_deterministic _ _ (List.Perm.swap _ _ _) (by decide)
  intro f c f' c' p h1 h2 h3 h4
  exfalso
  rcases mem_allComments.mp h1 with ⟨cs, hmem, hc⟩
  rcases List.mem_cons.mp hmem with he | hmem2
  · injection he with h5 h6
    subst h6
    rcases List.mem_singleton.mp hc with rfl
    simp [c3Root] at h3
  · have he2 := List.mem_singleton.mp hmem2
    injection he2 with h5 h6
    subst h6
    simp at hc

end Grt
